import Mathlib

/-! # Solitaire (solitaire.c): card stacks, configuration, move validation and move execution

A shallow embedding of `src/solitaire.c`.

* A doubly linked list (`head_`, `tail_`, `next_`, `prev_`) is the list of its
  nodes read from `head_` to `tail_`; `tail_ == NULL` is the empty list.
* The array `Doubly_Linked_List stacks[NUMBER_OF_STACKS]` is a list of exactly
  seven piles.  Reading `stacks[k]` with `k` outside `0..6`, dereferencing a
  `NULL` node and reading a variable that was never written have no defined
  behaviour in C: the embedding returns `none` there.
* `int` values are `Int`; `/` and `%` of C are `Int.tdiv` and `Int.tmod`.
  Pile and row indices are never negative where they are used and are `Nat`.
* Output parameters are returned next to the result.
* `stacks` is a reserved word of the library: the parameter `stacks` of the
  source is named `board` here.
-/

namespace Solitaire

/-! ## Constants -/

abbrev NUMBER_OF_STACKS : Nat := 7
abbrev NUMBER_OF_GAMESTACKS : Nat := 4
abbrev NUMBER_OF_CARDFACES : Int := 2
abbrev BOARD_SIZE : Nat := 16
abbrev MAX_COMMAND_ARG : Nat := 5
abbrev DRAWSTACK : Nat := 0
abbrev TWO : Int := 2
abbrev BLACK_KING : Int := 24
abbrev DEPOSIT_STACK_1 : Nat := 5
abbrev DEPOSIT_STACK_2 : Nat := 6
abbrev COMMAND_TYPE : Nat := 0
abbrev COMMAND_FIRST_ARG : Nat := 1
abbrev MOVE_CARD_COLOR : Nat := 1
abbrev MOVE_CARD_RANK : Nat := 2
abbrev MOVE_TO : Nat := 3
abbrev MOVE_TARGET_STACK : Nat := 4

/-! ## Data model -/

/-- The payload of a `struct Node`: the links are the list structure. -/
structure Node where
  card_value_ : Int
  is_faced_up_ : Bool
deriving DecidableEq, Repr

/-- A `Doubly_Linked_List`, read from `head_` to `tail_`. -/
abbrev Doubly_Linked_List := List Node

/-- The enum `ReturnValue`. -/
inductive ReturnValue where
  | MOVED
  | EXIT_GAME
  | EVERYTHING_OK
  | INVALID_MOVE_COMMAND
  | INVALID_COMMAND
  | INVALID_CARD
  | INVALID_ARG_COUNT
  | INVALID_FILE
  | OUT_OF_MEMORY
  | UNIDENTIFIED_ERROR
deriving DecidableEq, Repr

/-- The numeric value of a `ReturnValue`. -/
def ReturnValue.code : ReturnValue → Int
  | .MOVED => 2
  | .EXIT_GAME => 1
  | .EVERYTHING_OK => 0
  | .INVALID_MOVE_COMMAND => -1
  | .INVALID_COMMAND => -2
  | .INVALID_CARD => -3
  | .INVALID_ARG_COUNT => -4
  | .INVALID_FILE => -5
  | .OUT_OF_MEMORY => -6
  | .UNIDENTIFIED_ERROR => -7

/-- The array `stacks` of `main`: seven piles, index 0 the draw pile, 1..4 the
game stacks, 5 and 6 the deposit stacks. -/
structure Board where
  piles : List Doubly_Linked_List
  size_eq : piles.length = NUMBER_OF_STACKS

instance : DecidableEq Board := fun a b =>
  match a, b with
  | ⟨s, _⟩, ⟨t, _⟩ =>
    if h : s = t then isTrue (by subst h; rfl)
    else isFalse (fun e => h (congrArg Board.piles e))

/-- The read `stacks[k]`; `none` when `k` is outside the array. -/
def Board.get? (b : Board) (k : Nat) : Option Doubly_Linked_List := b.piles[k]?

/-- The pile `stacks[k]` for an index `k` of the array (empty outside it). -/
def Board.pile (b : Board) (k : Nat) : Doubly_Linked_List := b.piles.getD k []

/-- The board after pile `k` has been replaced by `p`. -/
def Board.set (b : Board) (k : Nat) (p : Doubly_Linked_List) : Board :=
  ⟨b.piles.set k p, by rw [List.length_set]; exact b.size_eq⟩

/-! ## List primitives: newNode, append, push, pop -/

/-- Models `newNode`: a fresh node is face-down. -/
def newNode (card : Int) : Node := { card_value_ := card, is_faced_up_ := false }

/-- Writes `is_faced_up_` of the tail node (`list.tail_->is_faced_up_ = v`). -/
def setTailFace (v : Bool) : Doubly_Linked_List → Doubly_Linked_List
  | [] => []
  | [a] => [{ a with is_faced_up_ := v }]
  | a :: b :: rest => a :: setTailFace v (b :: rest)

/-- Models `append`. -/
def append (list_ref : Doubly_Linked_List) (card : Int) (isDrawstack : Bool) :
    Doubly_Linked_List :=
  match list_ref with
  | [] => [{ newNode card with is_faced_up_ := true }]
  | _ :: _ =>
    if isDrawstack then
      setTailFace false list_ref ++ [{ newNode card with is_faced_up_ := true }]
    else
      list_ref ++ [{ newNode card with is_faced_up_ := true }]

/-- Models `push`. -/
def push (list_ref : Doubly_Linked_List) (card : Int) : Doubly_Linked_List :=
  match list_ref with
  | [] => [newNode card]
  | _ :: _ => newNode card :: list_ref

/-- Models `pop`: the returned card value and the list afterwards. -/
def pop (list_ref : Doubly_Linked_List) : Int × Doubly_Linked_List :=
  match list_ref.getLast? with
  | none => (0, list_ref)
  | some tail => (tail.card_value_, setTailFace true list_ref.dropLast)

/-- Models `rotateDrawstack`: `push(drawstack, pop(drawstack))`. -/
def rotateDrawstack (drawstack : Doubly_Linked_List) : Doubly_Linked_List :=
  let r := pop drawstack
  push r.2 r.1

/-! ## Move validation -/

/-- Models `twoCardsInOrder`. -/
def twoCardsInOrder (bottom_card top_card : Int) (target_stack : Nat) : Bool :=
  if (target_stack ≤ NUMBER_OF_GAMESTACKS ∧
        (bottom_card.tmod TWO = top_card.tmod TWO ∨
          bottom_card.tdiv TWO ≤ top_card.tdiv TWO)) ∨
      (target_stack > NUMBER_OF_GAMESTACKS ∧
        (bottom_card.tmod TWO ≠ top_card.tmod TWO ∨
          top_card - bottom_card ≠ TWO))
  then false
  else true

/-- The pointer reached from `card_pointer` after `n` unchecked steps
`card_pointer = card_pointer->next_`; `none` when a step starts at `NULL`. -/
def advance : Nat → Doubly_Linked_List → Option Doubly_Linked_List
  | 0, l => some l
  | _ + 1, [] => none
  | n + 1, _ :: rest => advance n rest

/-- The `while (card_pointer->next_)` loop of `checkOrder`, started at a node. -/
def checkOrderLoop (target_stack : Nat) : Doubly_Linked_List → Bool
  | a :: b :: rest =>
    if !twoCardsInOrder a.card_value_ b.card_value_ target_stack then false
    else checkOrderLoop target_stack (b :: rest)
  | _ => true

/-- Models `checkOrder`. -/
def checkOrder (stack : Doubly_Linked_List) (target_card_index : Nat)
    (target_stack : Nat) : Option Bool :=
  match advance target_card_index stack with
  | none => none
  | some [] => none
  | some (a :: rest) => some (checkOrderLoop target_stack (a :: rest))

/-- The inner loop of `searchCard` over one pile: `fuel` is the number of rows
still to visit (`BOARD_SIZE - row`); at the tail node the pointer stays put. -/
def searchRows (target_card : Int) : Nat → Nat → Doubly_Linked_List → Option Nat
  | 0, _, _ => none
  | _ + 1, _, [] => none
  | fuel + 1, row, current_card :: rest =>
    if current_card.card_value_ = target_card ∧ current_card.is_faced_up_ = true then
      some row
    else
      match rest with
      | [] => searchRows target_card fuel (row + 1) [current_card]
      | _ :: _ => searchRows target_card fuel (row + 1) rest

/-- The outer loop of `searchCard` from column `col` on. -/
def searchCols (target_card : Int) : Nat → List Doubly_Linked_List → Option (Nat × Nat)
  | _, [] => none
  | col, p :: ps =>
    match searchRows target_card BOARD_SIZE 0 p with
    | some row => some (row, col)
    | none => searchCols target_card (col + 1) ps

/-- Models `searchCard`: `some (target_card_index, target_card_stack)` when it
returns true, `none` when it returns false and writes nothing. -/
def searchCard (board : Board) (target_card : Int) : Option (Nat × Nat) :=
  searchCols target_card 0 board.piles

/-- Models `checkMove`: the returned flag and the output parameters
`(target_card_index, target_card_stack)`, `none` while they are unwritten. -/
def checkMove (board : Board) (target_card : Int) (target_stack : Nat) :
    Option (Bool × Option (Nat × Nat)) :=
  match searchCard board target_card with
  | none => some (false, none)
  | some (target_card_index, target_card_stack) =>
    if target_card_stack > NUMBER_OF_GAMESTACKS then
      some (false, some (target_card_index, target_card_stack))
    else
      match board.get? target_card_stack with
      | none => none
      | some source =>
        match checkOrder source target_card_index target_stack with
        | none => none
        | some in_order =>
          if in_order then
            match board.get? target_stack with
            | none => none
            | some target =>
              match target.getLast? with
              | none =>
                if target_stack ≤ NUMBER_OF_GAMESTACKS then
                  some (decide (target_card ≥ BLACK_KING),
                    some (target_card_index, target_card_stack))
                else
                  some (decide (target_card < NUMBER_OF_CARDFACES),
                    some (target_card_index, target_card_stack))
              | some tail =>
                if twoCardsInOrder tail.card_value_ target_card target_stack = true ∨
                    target_stack = target_card_stack then
                  some (true, some (target_card_index, target_card_stack))
                else
                  some (false, some (target_card_index, target_card_stack))
          else
            some (false, some (target_card_index, target_card_stack))

/-! ## Move execution -/

/-- The walk of `move` to the node at `target_card_index`: the nodes before it
and the list from it on; `none` when `target_card->next_ == NULL` stops it. -/
def moveWalk : Nat → Doubly_Linked_List → Option (Doubly_Linked_List × Doubly_Linked_List)
  | 0, l => some ([], l)
  | _ + 1, [] => none
  | _ + 1, [_] => none
  | n + 1, a :: b :: rest =>
    match moveWalk n (b :: rest) with
    | none => none
    | some (before, run) => some (a :: before, run)

/-- Models `move`. -/
def move (board : Board) (target_stack target_card_index target_card_stack : Nat) :
    Option (ReturnValue × Board) :=
  match board.get? target_card_stack with
  | none => none
  | some [] => none
  | some (head :: rest) =>
    match moveWalk target_card_index (head :: rest) with
    | none => some (ReturnValue.UNIDENTIFIED_ERROR, board)
    | some (before, target_card) =>
      let board1 := board.set target_card_stack (setTailFace true before)
      match board1.get? target_stack with
      | none => none
      | some [] => some (ReturnValue.MOVED, board1.set target_stack target_card)
      | some (h :: t) =>
        some (ReturnValue.MOVED, board1.set target_stack ((h :: t) ++ target_card))

/-! ## Commands -/

/-- The table `ranks` of `strToCard`. -/
def ranks : List String :=
  ["A", "2", "3", "4", "5", "6", "7", "8", "9", "10", "J", "Q", "K"]

/-- The `for` loop of `strToCard` from `index` on: the value of `*card` after it. -/
def strToCardLoop (color rank : String) (card : Int) : Int → List String → Int
  | _, [] => card
  | index, r :: rs =>
    if r = rank then (index * 2) + (if color = "BLACK" then 0 else 1)
    else strToCardLoop color rank card (index + 1) rs

/-- Models `strToCard`: the return value and `*card` afterwards, `card` being
the value of `*card` before the call. -/
def strToCard (color rank : String) (card : Int) : ReturnValue × Int :=
  if color ≠ "BLACK" ∧ color ≠ "RED" then (ReturnValue.INVALID_COMMAND, card)
  else (ReturnValue.EVERYTHING_OK, strToCardLoop color rank card 0 ranks)

/-- The C library's `isspace` in the "C" locale. -/
def isspace (c : Char) : Bool :=
  c = ' ' ∨ c = '\t' ∨ c = '\n' ∨ c = '\x0b' ∨ c = '\x0c' ∨ c = '\r'

/-- The value of the leading decimal digits of a string, after `acc`. -/
def digitsValue : Int → List Char → Int
  | acc, [] => acc
  | acc, c :: cs =>
    if '0' ≤ c ∧ c ≤ '9' then digitsValue (acc * 10 + (c.toNat - '0'.toNat : Nat)) cs
    else acc

/-- The C library's `strtol(s, NULL, 10)` with a 64-bit `long`: white space, an
optional sign, decimal digits; out-of-range values are clamped. -/
def strtol (s : String) : Int :=
  let v : Int :=
    match s.toList.dropWhile isspace with
    | '-' :: ds => - digitsValue 0 ds
    | '+' :: ds => digitsValue 0 ds
    | ds => digitsValue 0 ds
  if v < -(2 ^ 63) then -(2 ^ 63) else if 2 ^ 63 - 1 < v then 2 ^ 63 - 1 else v

/-- The conversion of a `long` to a 32-bit `int` (`int target_stack = strtol(...)`). -/
def longToInt (v : Int) : Int := (v + 2 ^ 31) % 2 ^ 32 - 2 ^ 31

/-- The tokens `strtok(string, " ")` yields one after the other: `cur` holds the
characters of the token being read, last first. -/
def strtokAll : List Char → List Char → List String
  | [], [] => []
  | [], c :: cur => [String.mk (c :: cur).reverse]
  | ch :: rest, cur =>
    if ch = ' ' then
      match cur with
      | [] => strtokAll rest []
      | c :: cur1 => String.mk (c :: cur1).reverse :: strtokAll rest []
    else strtokAll rest (ch :: cur)

/-- Models `splitString`: the return value and the array `arguments`, an entry
beyond the end of the list being `NULL`.  A C string ends at its first NUL. -/
def splitString (string : String) : ReturnValue × List String :=
  let tokens := strtokAll (string.toList.takeWhile (fun c => c ≠ '\x00')) []
  if tokens.length > MAX_COMMAND_ARG then
    (ReturnValue.INVALID_COMMAND, tokens.take MAX_COMMAND_ARG)
  else (ReturnValue.EVERYTHING_OK, tokens.take MAX_COMMAND_ARG)

/-- Models `printHelp` (the printed text is not modelled). -/
def printHelp (command : List String) : ReturnValue :=
  match command[COMMAND_FIRST_ARG]? with
  | none => ReturnValue.EVERYTHING_OK
  | some _ => ReturnValue.INVALID_COMMAND

/-- Models `moveCommand`: the return value and the board afterwards; `command`
is the array filled by `splitString`. -/
def moveCommand (board : Board) (command : List String) : Option (ReturnValue × Board) :=
  match command[MOVE_TARGET_STACK]? with
  | none => some (ReturnValue.INVALID_COMMAND, board)
  | some target_token =>
    if command[MOVE_TO]? ≠ some "TO" then some (ReturnValue.INVALID_COMMAND, board)
    else
      let target_stack : Int := longToInt (strtol target_token)
      if target_stack < 1 ∨ (NUMBER_OF_STACKS : Int) < target_stack then
        some (ReturnValue.INVALID_COMMAND, board)
      else
        match strToCard (command.getD MOVE_CARD_COLOR "") (command.getD MOVE_CARD_RANK "") 0 with
        | (ReturnValue.EVERYTHING_OK, target_card) =>
          match checkMove board target_card target_stack.toNat with
          | none => none
          | some (false, _) => some (ReturnValue.INVALID_MOVE_COMMAND, board)
          | some (true, none) => none
          | some (true, some (target_card_index, target_card_stack)) =>
            if target_card_stack ≠ target_stack.toNat then
              move board target_stack.toNat target_card_index target_card_stack
            else some (ReturnValue.MOVED, board)
        | (return_value, _) => some (return_value, board)

/-- Models `handleCommand`: the return value and the board afterwards. -/
def handleCommand (board : Board) (user_input : String) : Option (ReturnValue × Board) :=
  match splitString user_input with
  | (ReturnValue.EVERYTHING_OK, command) =>
    match command[COMMAND_TYPE]? with
    | none => some (ReturnValue.INVALID_COMMAND, board)
    | some command_type =>
      if command_type = "MOVE" then moveCommand board command
      else if command_type = "NEXT" then
        some (ReturnValue.MOVED, board.set DRAWSTACK (rotateDrawstack (board.pile DRAWSTACK)))
      else if command_type = "HELP" then some (printHelp command, board)
      else if command_type = "EXIT" then some (ReturnValue.EXIT_GAME, board)
      else some (ReturnValue.INVALID_COMMAND, board)
  | _ => some (ReturnValue.INVALID_COMMAND, board)

/-! ## Dealing -/

/-- One pass of the inner loop body of `arrangeCards`:
`append(&stacks[col], pop(&stacks[0]), false)`. -/
def arrangeStep (board : Board) (col : Nat) : Board :=
  let r := pop (board.pile DRAWSTACK)
  let board1 := board.set DRAWSTACK r.2
  board1.set col (append (board1.pile col) r.1 false)

/-- Models `arrangeCards`: rows 1..4, in row `row` the columns `row`..4. -/
def arrangeCards (board : Board) : Board :=
  (List.range' 1 NUMBER_OF_GAMESTACKS).foldl
    (fun b row => (List.range' row (NUMBER_OF_GAMESTACKS + 1 - row)).foldl arrangeStep b)
    board

/-- The draw pile after `readConfig` has appended the cards read, in order,
with `append(draw_stack, card, true)`. -/
def seedDrawstack (cards : List Int) : Doubly_Linked_List :=
  cards.foldl (fun draw_stack card => append draw_stack card true) []

/-- The board of `main` when the game loop starts: the seeded draw pile, six
empty piles, then `arrangeCards`. -/
def dealtBoard (cards : List Int) : Board :=
  arrangeCards ⟨[seedDrawstack cards, [], [], [], [], [], []], rfl⟩

/-- The boards the game loop of `main` can hold: the dealt board, and the board
after `handleCommand` has handled one more input line. -/
inductive Reachable (cards : List Int) : Board → Prop where
  | dealt : Reachable cards (dealtBoard cards)
  | command (board board1 : Board) (user_input : String) (return_value : ReturnValue) :
      Reachable cards board →
      handleCommand board user_input = some (return_value, board1) →
      Reachable cards board1

/-- The number of nodes on the board. -/
def cardCount (board : Board) : Nat := (board.piles.map List.length).sum

/-- The number of nodes on the board that hold card `c`. -/
def holders (board : Board) (c : Int) : Nat :=
  (board.piles.map (fun p => (p.filter (fun n => n.card_value_ = c)).length)).sum

/-! ## Reading the configuration and the win test -/

/-- Models `readCard`: `file` holds the white-space separated words of the file
that are still unread, `card` is the value of `*card` before the call.  A word
that does not fit `char color[6]` or `char rank[3]` is written past the buffer. -/
def readCard (file : List String) (card : Int) : Option (ReturnValue × Int × List String) :=
  match file with
  | color :: rank :: rest =>
    if color.utf8ByteSize > 5 ∨ rank.utf8ByteSize > 2 then none
    else
      let r := strToCard color rank card
      some (r.1, r.2, rest)
  | rest => some (ReturnValue.INVALID_FILE, card, rest)

/-- The `for` loop of `readConfig` with `n` passes left: the return value when the
loop returns, `EVERYTHING_OK` when it runs to its end, and the draw stack, the
unread words and `card` afterwards.  `checkArray` is never written. -/
def readConfigLoop : Nat → List String → Int → List Int → Doubly_Linked_List →
    Option (ReturnValue × Doubly_Linked_List × List String × Int)
  | 0, file, card, _, draw_stack => some (ReturnValue.EVERYTHING_OK, draw_stack, file, card)
  | n + 1, file, card, checkArray, draw_stack =>
    match readCard file card with
    | none => none
    | some (read_error, card1, file1) =>
      if read_error ≠ ReturnValue.EVERYTHING_OK then
        some (ReturnValue.INVALID_FILE, draw_stack, file1, card1)
      else if card1 < 0 then none
      else
        match checkArray[card1.toNat]? with
        | none => none
        | some seen =>
          if seen = 0 then
            readConfigLoop n file1 (card1 + 1) checkArray (append draw_stack card1 true)
          else some (ReturnValue.INVALID_FILE, draw_stack, file1, card1)

/-- Models `readConfig` on an empty draw stack: the return value and the draw
stack afterwards.  `card` is the value the local `card` starts with. -/
def readConfig (file : List String) (card : Int) : Option (ReturnValue × Doubly_Linked_List) :=
  match readConfigLoop 26 file card (List.replicate 26 0) [] with
  | none => none
  | some (ReturnValue.EVERYTHING_OK, draw_stack, file1, card1) =>
    match readCard file1 card1 with
    | none => none
    | some (ReturnValue.EVERYTHING_OK, _, _) => some (ReturnValue.INVALID_FILE, draw_stack)
    | some _ => some (ReturnValue.EVERYTHING_OK, draw_stack)
  | some (return_value, draw_stack, _, _) => some (return_value, draw_stack)

/-- The win test of the game loop in `main`, made after a command returned `MOVED`. -/
def winTest (board : Board) : Bool :=
  match (board.pile DEPOSIT_STACK_1).getLast?, (board.pile DEPOSIT_STACK_2).getLast? with
  | some tail1, some tail2 => decide (tail1.card_value_ + tail2.card_value_ = 49)
  | _, _ => false

/-! ## Printing -/

/-- The row loop of `printGame` with `rows` rows left: in each row the cell of a
column is the node `head[col]` points to (`none` when it is `NULL`, printed as
blanks), and the pointer then moves to `next_`. -/
def printGameLoop : Nat → List Doubly_Linked_List → List (List (Option Node))
  | 0, _ => []
  | rows + 1, head => head.map List.head? :: printGameLoop rows (head.map List.tail)

/-- Models `printGame`: the cells of the `BOARD_SIZE` printed rows (the header
and the text of a card are not modelled). -/
def printGame (board : Board) : List (List (Option Node)) :=
  printGameLoop BOARD_SIZE board.piles

/-! ## Specification-side vocabulary -/

/-- A node that `searchCard` accepts: it holds `target_card` and is face-up. -/
def IsFaceUpCard (target_card : Int) (n : Node) : Prop :=
  n.card_value_ = target_card ∧ n.is_faced_up_ = true

/-- Specification side: entry `i` of pile `s` is the first face-up entry holding
`target_card` when the piles are scanned in index order, each from head to tail. -/
def FirstFaceUp (board : Board) (target_card : Int) (s i : Nat) : Prop :=
  (∃ n, (board.pile s)[i]? = some n ∧ IsFaceUpCard target_card n) ∧
  (∀ j n, j < i → (board.pile s)[j]? = some n → ¬ IsFaceUpCard target_card n) ∧
  (∀ t n, t < s → n ∈ board.pile t → ¬ IsFaceUpCard target_card n)

/-- Every adjacent pair of `run`, read head to tail, passes `twoCardsInOrder`
for `target_stack`. -/
def RunInOrder (target_stack : Nat) (run : Doubly_Linked_List) : Prop :=
  List.Chain' (fun a b => twoCardsInOrder a.card_value_ b.card_value_ target_stack = true) run

/-- The placement test of `checkMove` (its step after `checkOrder`), as a proposition. -/
def PlacementOk (board : Board) (target_card : Int) (target_stack s : Nat) : Prop :=
  (board.pile target_stack = [] ∧
      ((target_stack ≤ NUMBER_OF_GAMESTACKS ∧ target_card ≥ BLACK_KING) ∨
        (NUMBER_OF_GAMESTACKS < target_stack ∧ target_card < NUMBER_OF_CARDFACES))) ∨
    ∃ tail, (board.pile target_stack).getLast? = some tail ∧
      (twoCardsInOrder tail.card_value_ target_card target_stack = true ∨ target_stack = s)

/-- Every entry of the pile is face-up. -/
def AllFaceUp (l : Doubly_Linked_List) : Prop := ∀ n ∈ l, n.is_faced_up_ = true

/-- No entry of the pile other than its tail is face-up. -/
def HiddenBelowTail (l : Doubly_Linked_List) : Prop := ∀ n ∈ l.dropLast, n.is_faced_up_ = false

/-- The face flags of a board in play: the draw pile is hidden below its tail,
the game stacks and the deposit stacks are face-up throughout. -/
def FaceInvariant (board : Board) : Prop :=
  HiddenBelowTail (board.pile DRAWSTACK) ∧
    ∀ k, 1 ≤ k → k < NUMBER_OF_STACKS → AllFaceUp (board.pile k)

/-- The words of a configuration file that lists the given (color, rank) pairs. -/
def cardWords : List (String × String) → List String
  | [] => []
  | c :: cs => c.1 :: c.2 :: cardWords cs

/-- The id `strToCard` gives a (color, rank) pair. -/
def cardId (c : String × String) : Int := (strToCard c.1 c.2 0).2

/-- Read head to tail, the pile holds the ids `c, c + 2, c + 4, ...` for a `c`
that is 0 or 1. -/
def AscendingFromAce (l : Doubly_Linked_List) : Prop :=
  ∃ c : Int, (c = 0 ∨ c = 1) ∧ ∀ (j : Nat) (n : Node), l[j]? = some n →
    n.card_value_ = c + 2 * (j : Int)

/-- Both deposit stacks ascend from an Ace. -/
def DepositInvariant (board : Board) : Prop :=
  ∀ k, NUMBER_OF_GAMESTACKS < k → k < NUMBER_OF_STACKS → AscendingFromAce (board.pile k)

/-- Each id is followed by an id of strictly lower rank. -/
def RankDescending (l : List Int) : Prop :=
  List.Chain' (fun a b : Int => b.tdiv 2 < a.tdiv 2) l

/-- Every id of the pile lies in 0..25. -/
def IdsInRange (l : Doubly_Linked_List) : Prop :=
  ∀ x ∈ l.map Node.card_value_, 0 ≤ x ∧ x ≤ 25

/-- The facts that bound the pile sizes of a board in play: the draw pile has at
most `BOARD_SIZE` entries, every id lies in 0..25, and in a game stack the ranks
descend from the fourth entry on. -/
def SizeInvariant (board : Board) : Prop :=
  (board.pile DRAWSTACK).length ≤ BOARD_SIZE ∧
    (∀ k, k < NUMBER_OF_STACKS → IdsInRange (board.pile k)) ∧
    ∀ k, 1 ≤ k → k ≤ NUMBER_OF_GAMESTACKS →
      RankDescending (((board.pile k).map Node.card_value_).drop 3)

/-! ## Example boards and commands -/

/-- A board with a hidden card under the draw pile's Black King, a Red 2, a Red
King under a Black Queen, an empty game stack, a Red 3 under a Black Jack, and a
Black Ace on the first deposit stack. -/
def sampleBoard : Board :=
  ⟨[[⟨10, false⟩, ⟨24, true⟩], [⟨3, true⟩], [⟨25, true⟩, ⟨22, true⟩], [],
    [⟨5, true⟩, ⟨20, true⟩], [⟨0, true⟩], []], rfl⟩

/-- A deck of the 26 cards: the draw pile keeps ids 15 down to 0 from head to
tail, the ten cards dealt to the game stacks are ids 16..25. -/
def deck0 : List Int :=
  [15, 14, 13, 12, 11, 10, 9, 8, 7, 6, 5, 4, 3, 2, 1, 0, 16, 17, 18, 19, 20, 21, 22, 23, 24, 25]

/-- Sixteen moves from the draw pile to the deposit stacks, then `NEXT`. -/
def cmds0 : List String :=
  ["MOVE BLACK A TO 5", "MOVE RED A TO 6", "MOVE BLACK 2 TO 5", "MOVE RED 2 TO 6",
    "MOVE BLACK 3 TO 5", "MOVE RED 3 TO 6", "MOVE BLACK 4 TO 5", "MOVE RED 4 TO 6",
    "MOVE BLACK 5 TO 5", "MOVE RED 5 TO 6", "MOVE BLACK 6 TO 5", "MOVE RED 6 TO 6",
    "MOVE BLACK 7 TO 5", "MOVE RED 7 TO 6", "MOVE BLACK 8 TO 5", "MOVE RED 8 TO 6", "NEXT"]

/-- The words of a configuration file with 26 valid cards in which `BLACK A`
occurs twice (and `RED K` is missing). -/
def duplicateConfig : List String :=
  ["BLACK", "A", "BLACK", "A", "RED", "A", "BLACK", "2", "RED", "2", "BLACK", "3", "RED", "3",
    "BLACK", "4", "RED", "4", "BLACK", "5", "RED", "5", "BLACK", "6", "RED", "6",
    "BLACK", "7", "RED", "7", "BLACK", "8", "RED", "8", "BLACK", "9", "RED", "9",
    "BLACK", "10", "RED", "10", "BLACK", "J", "RED", "J", "BLACK", "Q", "RED", "Q",
    "BLACK", "K"]

/-- A board whose deposit stacks end in the Black King and the Red King. -/
def kingsBoard : Board :=
  ⟨[[], [], [], [], [], [⟨22, true⟩, ⟨24, true⟩], [⟨23, true⟩, ⟨25, true⟩]], rfl⟩

/-- The board dealt from `deck0` after the first four moves of `cmds0`: both
Aces and both 2s lie on the deposit stacks. -/
def fourMovesBoard : Board :=
  ⟨[[⟨15, false⟩, ⟨14, false⟩, ⟨13, false⟩, ⟨12, false⟩, ⟨11, false⟩, ⟨10, false⟩, ⟨9, false⟩,
      ⟨8, false⟩, ⟨7, false⟩, ⟨6, false⟩, ⟨5, false⟩, ⟨4, true⟩],
    [⟨25, true⟩],
    [⟨24, true⟩, ⟨21, true⟩],
    [⟨23, true⟩, ⟨20, true⟩, ⟨18, true⟩],
    [⟨22, true⟩, ⟨19, true⟩, ⟨17, true⟩, ⟨16, true⟩],
    [⟨0, true⟩, ⟨2, true⟩],
    [⟨1, true⟩, ⟨3, true⟩]], rfl⟩

/-- Runs `handleCommand` on the input lines one after the other. -/
def runCommands (board : Board) : List String → Option Board
  | [] => some board
  | user_input :: rest =>
    match handleCommand board user_input with
    | none => none
    | some (_, board1) => runCommands board1 rest

/-! ## Board access -/

theorem Board.get?_eq_pile (b : Board) {k : Nat} (hk : k < NUMBER_OF_STACKS) :
    b.get? k = some (b.pile k) := by
  have h : k < b.piles.length := by rw [b.size_eq]; exact hk
  simp [Board.get?, Board.pile, List.getD, List.getElem?_eq_getElem h]

theorem Board.get?_eq_some {b : Board} {k : Nat} {p : Doubly_Linked_List}
    (h : b.get? k = some p) : k < NUMBER_OF_STACKS ∧ b.pile k = p := by
  unfold Board.get? at h
  have hk : k < b.piles.length := by
    by_contra hc
    rw [List.getElem?_eq_none (Nat.le_of_not_lt hc)] at h
    exact Option.noConfusion h
  refine ⟨by rw [← b.size_eq]; exact hk, ?_⟩
  simp [Board.pile, List.getD, h]

theorem Board.get?_eq_none {b : Board} {k : Nat} (h : b.get? k = none) :
    NUMBER_OF_STACKS ≤ k := by
  by_contra hc
  rw [Board.get?_eq_pile b (Nat.lt_of_not_le hc)] at h
  exact Option.noConfusion h

theorem Board.pile_set_eq (b : Board) {k : Nat} (p : Doubly_Linked_List)
    (hk : k < NUMBER_OF_STACKS) : (b.set k p).pile k = p := by
  have h : k < b.piles.length := by rw [b.size_eq]; exact hk
  simp [Board.pile, Board.set, List.getD, h]

theorem Board.pile_set_ne (b : Board) {k j : Nat} (p : Doubly_Linked_List)
    (hkj : k ≠ j) : (b.set k p).pile j = b.pile j := by
  simp [Board.pile, Board.set, List.getD, List.getElem?_set_ne hkj]

theorem Board.ext_piles {a b : Board} (h : a.piles = b.piles) : a = b := by
  cases a; cases b; cases h; rfl

theorem Board.set_pile_self (b : Board) (k : Nat) : b.set k (b.pile k) = b := by
  apply Board.ext_piles
  apply List.ext_getElem?
  intro j
  by_cases hkj : k = j
  · subst hkj
    by_cases hk : k < b.piles.length
    · simp [Board.set, Board.pile, List.getD, hk]
    · simp [Board.set, Board.pile, List.getD, List.getElem?_eq_none (Nat.le_of_not_lt hk)]
      exact Nat.le_of_not_lt hk
  · simp [Board.set, List.getElem?_set_ne hkj]

theorem Board.ext_pile {a b : Board} (h : ∀ k, k < NUMBER_OF_STACKS → a.pile k = b.pile k) :
    a = b := by
  apply Board.ext_piles
  apply List.ext_getElem?
  intro k
  by_cases hk : k < NUMBER_OF_STACKS
  · have h1 := Board.get?_eq_pile a hk
    have h2 := Board.get?_eq_pile b hk
    unfold Board.get? at h1 h2
    rw [h1, h2, h k hk]
  · have ha : a.piles.length ≤ k := by rw [a.size_eq]; exact Nat.le_of_not_lt hk
    have hb : b.piles.length ≤ k := by rw [b.size_eq]; exact Nat.le_of_not_lt hk
    rw [List.getElem?_eq_none ha, List.getElem?_eq_none hb]

/-! ## The ordering rule -/

theorem twoCardsInOrder_gamestack {bottom_card top_card : Int} {target_stack : Nat}
    (hb : 0 ≤ bottom_card) (ht : 0 ≤ top_card) (hs : target_stack ≤ NUMBER_OF_GAMESTACKS) :
    twoCardsInOrder bottom_card top_card target_stack = true ↔
      bottom_card % 2 ≠ top_card % 2 ∧ bottom_card / 2 > top_card / 2 := by
  have e1 : bottom_card.tmod 2 = bottom_card % 2 := Int.tmod_eq_emod hb (by decide)
  have e2 : top_card.tmod 2 = top_card % 2 := Int.tmod_eq_emod ht (by decide)
  have e3 : bottom_card.tdiv 2 = bottom_card / 2 := Int.tdiv_eq_ediv hb (by decide)
  have e4 : top_card.tdiv 2 = top_card / 2 := Int.tdiv_eq_ediv ht (by decide)
  have hs1 : target_stack ≤ 4 := hs
  simp only [twoCardsInOrder, TWO, NUMBER_OF_GAMESTACKS, e1, e2, e3, e4]
  split <;> simp <;> omega

theorem twoCardsInOrder_deposit {bottom_card top_card : Int} {target_stack : Nat}
    (hb : 0 ≤ bottom_card) (ht : 0 ≤ top_card) (hs : NUMBER_OF_GAMESTACKS < target_stack) :
    twoCardsInOrder bottom_card top_card target_stack = true ↔
      bottom_card % 2 = top_card % 2 ∧ top_card / 2 = bottom_card / 2 + 1 := by
  have e1 : bottom_card.tmod 2 = bottom_card % 2 := Int.tmod_eq_emod hb (by decide)
  have e2 : top_card.tmod 2 = top_card % 2 := Int.tmod_eq_emod ht (by decide)
  have hs1 : 4 < target_stack := hs
  simp only [twoCardsInOrder, TWO, NUMBER_OF_GAMESTACKS, e1, e2]
  split <;> simp <;> omega

theorem checkOrderLoop_iff (target_stack : Nat) (run : Doubly_Linked_List) :
    checkOrderLoop target_stack run = true ↔ RunInOrder target_stack run := by
  unfold RunInOrder
  induction run with
  | nil => simp [checkOrderLoop]
  | cons a rest ih =>
    cases rest with
    | nil => simp [checkOrderLoop]
    | cons b rest1 =>
      rw [List.chain'_cons, ← ih]
      cases h : twoCardsInOrder a.card_value_ b.card_value_ target_stack <;>
        simp [checkOrderLoop, h]

theorem advance_eq_drop (n : Nat) (l : Doubly_Linked_List) (h : n ≤ l.length) :
    advance n l = some (l.drop n) := by
  induction n generalizing l with
  | zero => rfl
  | succ k ih =>
    cases l with
    | nil => exact absurd h (by simp)
    | cons a rest =>
      simp only [advance, List.drop_succ_cons]
      exact ih rest (Nat.le_of_succ_le_succ h)

theorem checkOrder_of_lt (stack : Doubly_Linked_List) (target_card_index target_stack : Nat)
    (h : target_card_index < stack.length) :
    checkOrder stack target_card_index target_stack =
      some (checkOrderLoop target_stack (stack.drop target_card_index)) := by
  unfold checkOrder
  rw [advance_eq_drop _ _ (Nat.le_of_lt h)]
  cases hd : stack.drop target_card_index with
  | nil =>
    have := congrArg List.length hd
    simp at this
    omega
  | cons a rest => rfl

/-! ## The search -/

theorem searchRows_some {target_card : Int} {fuel row r : Nat} {p : Doubly_Linked_List}
    (h : searchRows target_card fuel row p = some r) :
    ∃ i, r = row + i ∧ i < fuel ∧ (∃ n, p[i]? = some n ∧ IsFaceUpCard target_card n) ∧
      ∀ j n, j < i → p[j]? = some n → ¬ IsFaceUpCard target_card n := by
  induction fuel generalizing row p with
  | zero => simp [searchRows] at h
  | succ fuel ih =>
    cases p with
    | nil => simp [searchRows] at h
    | cons a rest =>
      unfold searchRows at h
      split at h
      · rename_i hm
        refine ⟨0, ?_, Nat.succ_pos _, ⟨a, List.getElem?_cons_zero, hm⟩, ?_⟩
        · simpa using (Option.some.inj h).symm
        · intro j n hj; exact absurd hj (Nat.not_lt_zero _)
      · rename_i hm
        cases rest with
        | nil =>
          obtain ⟨i, _, _, ⟨n, hn, hnm⟩, _⟩ := ih h
          cases i with
          | zero =>
            simp at hn
            subst hn
            exact absurd hnm hm
          | succ i1 => simp at hn
        | cons b rest1 =>
          obtain ⟨i, hr, hi, ⟨n, hn, hnm⟩, hbefore⟩ := ih h
          refine ⟨i + 1, by omega, by omega, ⟨n, by simpa using hn, hnm⟩, ?_⟩
          intro j n1 hj hn1
          cases j with
          | zero =>
            simp at hn1
            subst hn1
            exact hm
          | succ j1 =>
            exact hbefore j1 n1 (by omega) (by simpa using hn1)

theorem searchRows_none {target_card : Int} {fuel row : Nat} {p : Doubly_Linked_List}
    (h : searchRows target_card fuel row p = none) :
    ∀ j n, j < fuel → p[j]? = some n → ¬ IsFaceUpCard target_card n := by
  induction fuel generalizing row p with
  | zero => intro j n hj; exact absurd hj (Nat.not_lt_zero _)
  | succ fuel ih =>
    cases p with
    | nil => intro j n _ hn; simp at hn
    | cons a rest =>
      unfold searchRows at h
      split at h
      · exact Option.noConfusion h
      · rename_i hm
        intro j n hj hn
        cases j with
        | zero =>
          simp at hn
          subst hn
          exact hm
        | succ j1 =>
          cases rest with
          | nil => simp at hn
          | cons b rest1 =>
            exact ih h j1 n (by omega) (by simpa using hn)

theorem searchCols_some {target_card : Int} {col r k : Nat} {ps : List Doubly_Linked_List}
    (h : searchCols target_card col ps = some (r, k)) :
    ∃ t p, k = col + t ∧ r < BOARD_SIZE ∧ ps[t]? = some p ∧
      (∃ n, p[r]? = some n ∧ IsFaceUpCard target_card n) ∧
      (∀ j n, j < r → p[j]? = some n → ¬ IsFaceUpCard target_card n) ∧
      ∀ u q, u < t → ps[u]? = some q →
        ∀ j n, j < BOARD_SIZE → q[j]? = some n → ¬ IsFaceUpCard target_card n := by
  induction ps generalizing col with
  | nil => simp [searchCols] at h
  | cons p0 rest ih =>
    unfold searchCols at h
    split at h
    · rename_i row hrow
      obtain ⟨i, hi1, hi2, hi3, hi4⟩ := searchRows_some hrow
      have hrk : row = r ∧ col = k := by simpa using h
      obtain ⟨h1, h2⟩ := hrk
      subst h1 h2
      have hri : row = i := by omega
      subst hri
      refine ⟨0, p0, rfl, hi2, List.getElem?_cons_zero, hi3, hi4, ?_⟩
      intro u q hu; exact absurd hu (Nat.not_lt_zero _)
    · rename_i hrow
      obtain ⟨t, p, hk, hr, hp, hm, hb, hprev⟩ := ih h
      refine ⟨t + 1, p, by omega, hr, by simpa using hp, hm, hb, ?_⟩
      intro u q hu hq
      cases u with
      | zero =>
        simp at hq
        subst hq
        exact searchRows_none hrow
      | succ u1 => exact hprev u1 q (by omega) (by simpa using hq)

theorem searchCols_none {target_card : Int} {col : Nat} {ps : List Doubly_Linked_List}
    (h : searchCols target_card col ps = none) :
    ∀ (u : Nat) (q : Doubly_Linked_List), ps[u]? = some q →
      ∀ (j : Nat) (n : Node), j < BOARD_SIZE → q[j]? = some n →
        ¬ IsFaceUpCard target_card n := by
  induction ps generalizing col with
  | nil => intro u q hq; simp at hq
  | cons p0 rest ih =>
    unfold searchCols at h
    split at h
    · exact Option.noConfusion h
    · rename_i hrow
      intro u q hq
      cases u with
      | zero =>
        simp at hq
        subst hq
        exact searchRows_none hrow
      | succ u1 => exact ih h u1 q (by simpa using hq)

theorem Board.pile_of_getElem? {b : Board} {k : Nat} {p : Doubly_Linked_List}
    (h : b.piles[k]? = some p) : k < NUMBER_OF_STACKS ∧ b.pile k = p :=
  Board.get?_eq_some h

theorem Board.getElem?_pile (b : Board) {k : Nat} (hk : k < NUMBER_OF_STACKS) :
    b.piles[k]? = some (b.pile k) :=
  Board.get?_eq_pile b hk

/-- What a successful `searchCard` has found, without any bound on the pile lengths. -/
theorem searchCard_some {board : Board} {target_card : Int} {i s : Nat}
    (h : searchCard board target_card = some (i, s)) :
    s < NUMBER_OF_STACKS ∧ i < BOARD_SIZE ∧ i < (board.pile s).length ∧
      (∃ n, (board.pile s)[i]? = some n ∧ IsFaceUpCard target_card n) ∧
      (∀ j n, j < i → (board.pile s)[j]? = some n → ¬ IsFaceUpCard target_card n) ∧
      ∀ t, t < s → ∀ j n, j < BOARD_SIZE → (board.pile t)[j]? = some n →
        ¬ IsFaceUpCard target_card n := by
  obtain ⟨t, p, hk, hr, hp, hm, hb, hprev⟩ := searchCols_some h
  have hst : s = t := by omega
  subst hst
  obtain ⟨hs, hpile⟩ := Board.pile_of_getElem? hp
  subst hpile
  refine ⟨hs, hr, ?_, hm, hb, ?_⟩
  · obtain ⟨n, hn, _⟩ := hm
    by_contra hc
    rw [List.getElem?_eq_none (Nat.le_of_not_lt hc)] at hn
    exact Option.noConfusion hn
  · intro u hu j n hj hn
    exact hprev u (board.pile u) hu (Board.getElem?_pile board (by omega)) j n hj hn

theorem searchCard_none {board : Board} {target_card : Int}
    (h : searchCard board target_card = none) :
    ∀ t, t < NUMBER_OF_STACKS → ∀ j n, j < BOARD_SIZE → (board.pile t)[j]? = some n →
      ¬ IsFaceUpCard target_card n := by
  intro t ht j n hj hn
  exact searchCols_none h t (board.pile t) (Board.getElem?_pile board ht) j n hj hn

theorem Board.pile_eq_nil (b : Board) {k : Nat} (hk : NUMBER_OF_STACKS ≤ k) : b.pile k = [] := by
  have h : b.piles.length ≤ k := by rw [b.size_eq]; exact hk
  simp [Board.pile, List.getD, List.getElem?_eq_none h]

theorem Board.pile_mem (b : Board) {k : Nat} (hk : k < NUMBER_OF_STACKS) :
    b.pile k ∈ b.piles := by
  have h := Board.getElem?_pile b hk
  exact List.getElem?_mem h

/-- With at most `BOARD_SIZE` entries in every pile, `searchCard` finds exactly
the first face-up entry that holds the card. -/
theorem searchCard_iff (board : Board) (target_card : Int) (i s : Nat)
    (hlen : ∀ p ∈ board.piles, p.length ≤ BOARD_SIZE) :
    searchCard board target_card = some (i, s) ↔ FirstFaceUp board target_card s i := by
  have bound : ∀ t j n, (board.pile t)[j]? = some n → t < NUMBER_OF_STACKS ∧ j < BOARD_SIZE := by
    intro t j n hn
    have hj : j < (board.pile t).length := by
      by_contra hc
      rw [List.getElem?_eq_none (Nat.le_of_not_lt hc)] at hn
      exact Option.noConfusion hn
    have ht : t < NUMBER_OF_STACKS := by
      by_contra hc
      rw [Board.pile_eq_nil board (Nat.le_of_not_lt hc)] at hj
      exact absurd hj (Nat.not_lt_zero _)
    exact ⟨ht, Nat.lt_of_lt_of_le hj (hlen _ (Board.pile_mem board ht))⟩
  constructor
  · intro h
    obtain ⟨_, _, _, hm, hb, hprev⟩ := searchCard_some h
    refine ⟨hm, hb, ?_⟩
    intro t n ht hn
    obtain ⟨j, hj⟩ := List.getElem?_of_mem hn
    exact hprev t ht j n (bound t j n hj).2 hj
  · rintro ⟨⟨n, hn, hnm⟩, hb, hprev⟩
    obtain ⟨hs, hi⟩ := bound s i n hn
    cases hsc : searchCard board target_card with
    | none => exact absurd hnm (searchCard_none hsc s hs i n hi hn)
    | some loc =>
      obtain ⟨r, k⟩ := loc
      obtain ⟨_, hr, _, ⟨n1, hn1, hnm1⟩, hb1, hprev1⟩ := searchCard_some hsc
      have hks : k = s := by
        rcases Nat.lt_trichotomy k s with hlt | heq | hgt
        · exact absurd hnm1 (hprev k n1 hlt (List.getElem?_mem hn1))
        · exact heq
        · exact absurd hnm (hprev1 s hgt i n hi hn)
      subst hks
      have hri : r = i := by
        rcases Nat.lt_trichotomy r i with hlt | heq | hgt
        · exact absurd hnm1 (hb r n1 hlt hn1)
        · exact heq
        · exact absurd hnm (hb1 i n hgt hn)
      subst hri
      rfl

/-! ## The validator -/

/-- The value of `checkMove` once `searchCard` has located the card in a draw or
game stack. -/
theorem checkMove_found {board : Board} {target_card : Int} {target_stack i s : Nat}
    (h : searchCard board target_card = some (i, s)) (hs : s ≤ NUMBER_OF_GAMESTACKS) :
    checkMove board target_card target_stack =
      if checkOrderLoop target_stack ((board.pile s).drop i) = true then
        match board.get? target_stack with
        | none => none
        | some target =>
          match target.getLast? with
          | none =>
            if target_stack ≤ NUMBER_OF_GAMESTACKS then
              some (decide (target_card ≥ BLACK_KING), some (i, s))
            else some (decide (target_card < NUMBER_OF_CARDFACES), some (i, s))
          | some tail =>
            if twoCardsInOrder tail.card_value_ target_card target_stack = true ∨
                target_stack = s then some (true, some (i, s))
            else some (false, some (i, s))
      else some (false, some (i, s)) := by
  obtain ⟨hs7, _, hi, _⟩ := searchCard_some h
  have hs2 : ¬ s > NUMBER_OF_GAMESTACKS := Nat.not_lt.mpr hs
  unfold checkMove
  simp only [h, hs2, if_false, Board.get?_eq_pile board hs7,
    checkOrder_of_lt (board.pile s) i target_stack hi]

/-- The value of `checkMove` when `searchCard` has located the card in a deposit stack. -/
theorem checkMove_found_deposit {board : Board} {target_card : Int} {target_stack i s : Nat}
    (h : searchCard board target_card = some (i, s)) (hs : NUMBER_OF_GAMESTACKS < s) :
    checkMove board target_card target_stack = some (false, some (i, s)) := by
  have hs2 : s > NUMBER_OF_GAMESTACKS := hs
  unfold checkMove
  simp only [h, hs2, if_true]

theorem checkMove_not_found {board : Board} {target_card : Int} {target_stack : Nat}
    (h : searchCard board target_card = none) :
    checkMove board target_card target_stack = some (false, none) := by
  unfold checkMove
  simp only [h]

theorem getLast?_eq_none_iff_nil (l : Doubly_Linked_List) : l.getLast? = none ↔ l = [] := by
  cases l with
  | nil => simp
  | cons a rest => simp [List.getLast?_cons_cons, List.getLast?]

/-- For a card located in a draw or game stack and a target inside the array,
`checkMove` returns, reports the location, and is true exactly when the run is
in order and the placement test passes. -/
theorem checkMove_value {board : Board} {target_card : Int} {target_stack i s : Nat}
    (h : searchCard board target_card = some (i, s)) (hs : s ≤ NUMBER_OF_GAMESTACKS)
    (hdest : target_stack < NUMBER_OF_STACKS) :
    ∃ move_valid, checkMove board target_card target_stack = some (move_valid, some (i, s)) ∧
      (move_valid = true ↔
        RunInOrder target_stack ((board.pile s).drop i) ∧
          PlacementOk board target_card target_stack s) := by
  rw [checkMove_found h hs, Board.get?_eq_pile board hdest, ← checkOrderLoop_iff]
  unfold PlacementOk
  by_cases hord : checkOrderLoop target_stack ((board.pile s).drop i) = true
  · simp only [hord, if_true, true_and]
    cases hl : (board.pile target_stack).getLast? with
    | none =>
      have hnil := (getLast?_eq_none_iff_nil _).mp hl
      by_cases ht : target_stack ≤ NUMBER_OF_GAMESTACKS
      · have ht2 : ¬ NUMBER_OF_GAMESTACKS < target_stack := Nat.not_lt.mpr ht
        simp only [ht, if_true]
        refine ⟨_, rfl, ?_⟩
        simp [hnil, ht2, ht]
      · have ht2 : NUMBER_OF_GAMESTACKS < target_stack := Nat.lt_of_not_le ht
        simp only [ht, if_false]
        refine ⟨_, rfl, ?_⟩
        simp [hnil, ht2, ht]
    | some tail =>
      have hne : board.pile target_stack ≠ [] := by
        intro hc; rw [hc] at hl; exact Option.noConfusion hl
      by_cases hp : twoCardsInOrder tail.card_value_ target_card target_stack = true ∨
          target_stack = s
      · simp only [hp, if_true]
        refine ⟨_, rfl, ?_⟩
        simp only [true_iff]
        exact Or.inr ⟨tail, rfl, hp⟩
      · simp only [hp, if_false]
        refine ⟨_, rfl, ?_⟩
        simp only [Bool.false_eq_true, false_iff]
        rintro (⟨hc, _⟩ | ⟨tail1, ht1, hp1⟩)
        · exact hne hc
        · have : tail = tail1 := Option.some.inj ht1
          subst this
          exact hp hp1
  · simp only [hord, if_false]
    refine ⟨_, rfl, ?_⟩
    simp

/-! ## The executor -/

theorem setTailFace_length (v : Bool) (l : Doubly_Linked_List) :
    (setTailFace v l).length = l.length := by
  induction l with
  | nil => rfl
  | cons a rest ih =>
    cases rest with
    | nil => rfl
    | cons b rest1 => simp only [setTailFace, List.length_cons] at ih ⊢; rw [ih]

theorem setTailFace_getElem? (v : Bool) (l : Doubly_Linked_List) (j : Nat) :
    (setTailFace v l)[j]? =
      (l[j]?).map (fun n => if j + 1 = l.length then { n with is_faced_up_ := v } else n) := by
  induction l generalizing j with
  | nil => simp [setTailFace]
  | cons a rest ih =>
    cases rest with
    | nil =>
      cases j with
      | zero => simp [setTailFace]
      | succ j1 => simp [setTailFace]
    | cons b rest1 =>
      cases j with
      | zero => simp [setTailFace]
      | succ j1 =>
        have h := ih j1
        simp only [setTailFace, List.getElem?_cons_succ, List.length_cons] at h ⊢
        rw [h]
        congr 1
        funext n
        simp only [Nat.add_right_cancel_iff]

theorem setTailFace_map_card (v : Bool) (l : Doubly_Linked_List) :
    (setTailFace v l).map Node.card_value_ = l.map Node.card_value_ := by
  induction l with
  | nil => rfl
  | cons a rest ih =>
    cases rest with
    | nil => rfl
    | cons b rest1 => simp only [setTailFace, List.map_cons] at ih ⊢; rw [ih]

theorem moveWalk_of_lt (i : Nat) (l : Doubly_Linked_List) (h : i < l.length) :
    moveWalk i l = some (l.take i, l.drop i) := by
  induction i generalizing l with
  | zero => rfl
  | succ k ih =>
    cases l with
    | nil => exact absurd h (Nat.not_lt_zero _)
    | cons a rest =>
      cases rest with
      | nil => simp at h
      | cons b rest1 =>
        have hk : k < (b :: rest1).length := Nat.lt_of_succ_lt_succ h
        simp only [moveWalk, ih (b :: rest1) hk, List.take_succ_cons, List.drop_succ_cons]

/-- What `move` returns: `MOVED`, or `UNIDENTIFIED_ERROR` with the board untouched. -/
theorem move_result {board board1 : Board} {target_stack i s : Nat} {return_value : ReturnValue}
    (h : move board target_stack i s = some (return_value, board1)) :
    return_value = ReturnValue.MOVED ∨
      (return_value = ReturnValue.UNIDENTIFIED_ERROR ∧ board1 = board) := by
  unfold move at h
  split at h
  · exact Option.noConfusion h
  · exact Option.noConfusion h
  · split at h
    · have h1 := Option.some.inj h
      exact Or.inr ⟨(congrArg Prod.fst h1).symm, (congrArg Prod.snd h1).symm⟩
    · simp only at h
      split at h
      · exact Option.noConfusion h
      · exact Or.inl (congrArg Prod.fst (Option.some.inj h)).symm
      · exact Or.inl (congrArg Prod.fst (Option.some.inj h)).symm

/-- The board `move` produces for an offset inside the source pile and a target
inside the array: detach, reveal, then attach to the pile read after the detach. -/
theorem move_eq {board : Board} {target_stack i s : Nat}
    (hs : s < NUMBER_OF_STACKS) (hi : i < (board.pile s).length)
    (hd : target_stack < NUMBER_OF_STACKS) :
    move board target_stack i s =
      some (ReturnValue.MOVED,
        (board.set s (setTailFace true ((board.pile s).take i))).set target_stack
          (((board.set s (setTailFace true ((board.pile s).take i))).pile target_stack) ++
            (board.pile s).drop i)) := by
  unfold move
  rw [Board.get?_eq_pile board hs]
  cases hp : board.pile s with
  | nil => rw [hp] at hi; exact absurd hi (Nat.not_lt_zero _)
  | cons head rest =>
    rw [hp] at hi
    simp only [moveWalk_of_lt i (head :: rest) hi]
    rw [Board.get?_eq_pile _ hd]
    cases hq : (board.set s (setTailFace true ((head :: rest).take i))).pile target_stack with
    | nil => simp
    | cons h t => simp

theorem reveal_take_getElem? (l : Doubly_Linked_List) (i j : Nat) (n : Node)
    (hi : i ≤ l.length) (hj : j < i) (hn : l[j]? = some n) :
    (setTailFace true (l.take i))[j]? =
      some (if j + 1 = i then { n with is_faced_up_ := true } else n) := by
  rw [setTailFace_getElem?, List.getElem?_take_of_lt hj, hn, List.length_take,
    Nat.min_eq_left hi]
  rfl

theorem reveal_take_append_drop_getElem? (l : Doubly_Linked_List) (i j : Nat) (n : Node)
    (hi : i ≤ l.length) (hn : l[j]? = some n) :
    (setTailFace true (l.take i) ++ l.drop i)[j]? =
      some (if j + 1 = i then { n with is_faced_up_ := true } else n) := by
  have hlen : (setTailFace true (l.take i)).length = i := by
    rw [setTailFace_length, List.length_take, Nat.min_eq_left hi]
  by_cases hj : j < i
  · rw [List.getElem?_append_left (by rw [hlen]; exact hj)]
    exact reveal_take_getElem? l i j n hi hj hn
  · have hij : i ≤ j := Nat.le_of_not_lt hj
    rw [List.getElem?_append_right (by rw [hlen]; exact hij), hlen, List.getElem?_drop,
      Nat.add_sub_cancel' hij, hn]
    have hne : ¬ j + 1 = i := by omega
    simp only [hne, if_false]

theorem loc_inj {v w : Bool} {i1 s1 i s : Nat}
    (h : (some (v, some (i1, s1)) : Option (Bool × Option (Nat × Nat))) = some (w, some (i, s))) :
    i1 = i ∧ s1 = s := by
  simp only [Option.some.injEq, Prod.mk.injEq] at h
  exact h.2

/-- The location `checkMove` reports is the one `searchCard` wrote. -/
theorem checkMove_loc {board : Board} {target_card : Int} {target_stack i s : Nat}
    {move_valid : Bool}
    (h : checkMove board target_card target_stack = some (move_valid, some (i, s))) :
    searchCard board target_card = some (i, s) := by
  cases hsc : searchCard board target_card with
  | none =>
    rw [checkMove_not_found hsc] at h
    simp at h
  | some loc =>
    obtain ⟨i1, s1⟩ := loc
    have key : i1 = i ∧ s1 = s := by
      by_cases hs : s1 ≤ NUMBER_OF_GAMESTACKS
      · rw [checkMove_found hsc hs] at h
        split at h
        · split at h
          · exact Option.noConfusion h
          · split at h
            · split at h <;> exact loc_inj h
            · split at h <;> exact loc_inj h
        · exact loc_inj h
      · rw [checkMove_found_deposit hsc (Nat.lt_of_not_le hs)] at h
        exact loc_inj h
    rw [key.1, key.2]

/-- A move that `checkMove` accepts starts in a draw or game stack, from a run
that is in order, and its target is inside the array. -/
theorem checkMove_true {board : Board} {target_card : Int} {target_stack : Nat}
    {loc : Option (Nat × Nat)}
    (h : checkMove board target_card target_stack = some (true, loc)) :
    ∃ i s, loc = some (i, s) ∧ searchCard board target_card = some (i, s) ∧
      s ≤ NUMBER_OF_GAMESTACKS ∧ target_stack < NUMBER_OF_STACKS ∧
      RunInOrder target_stack ((board.pile s).drop i) ∧
      PlacementOk board target_card target_stack s := by
  cases hsc : searchCard board target_card with
  | none =>
    rw [checkMove_not_found hsc] at h
    simp at h
  | some loc1 =>
    obtain ⟨i, s⟩ := loc1
    by_cases hs : s ≤ NUMBER_OF_GAMESTACKS
    · by_cases hd : target_stack < NUMBER_OF_STACKS
      · obtain ⟨v, hv, hiff⟩ := checkMove_value hsc hs hd
        rw [hv] at h
        have h1 := Option.some.inj h
        have hvt : v = true := congrArg Prod.fst h1
        have hl : some (i, s) = loc := congrArg Prod.snd h1
        obtain ⟨hrun, hplace⟩ := hiff.mp hvt
        exact ⟨i, s, hl.symm, rfl, hs, hd, hrun, hplace⟩
      · have hnone : board.get? target_stack = none := by
          unfold Board.get?
          exact List.getElem?_eq_none (by rw [board.size_eq]; exact Nat.le_of_not_lt hd)
        rw [checkMove_found hsc hs, hnone] at h
        split at h
        · exact Option.noConfusion h
        · simp at h
    · rw [checkMove_found_deposit hsc (Nat.lt_of_not_le hs)] at h
      simp at h

/-- The result of `moveCommand` for a command with a well-formed `TO`, target
number and color. -/
theorem moveCommand_parsed {board : Board} {command : List String} {target_token : String}
    {target_card : Int}
    (htoken : command[MOVE_TARGET_STACK]? = some target_token)
    (hto : command[MOVE_TO]? = some "TO")
    (hrange : 1 ≤ longToInt (strtol target_token) ∧ longToInt (strtol target_token) ≤ 7)
    (hcard : strToCard (command.getD MOVE_CARD_COLOR "") (command.getD MOVE_CARD_RANK "") 0 =
      (ReturnValue.EVERYTHING_OK, target_card)) :
    moveCommand board command =
      match checkMove board target_card (longToInt (strtol target_token)).toNat with
      | none => none
      | some (false, _) => some (ReturnValue.INVALID_MOVE_COMMAND, board)
      | some (true, none) => none
      | some (true, some (target_card_index, target_card_stack)) =>
        if target_card_stack ≠ (longToInt (strtol target_token)).toNat then
          move board (longToInt (strtol target_token)).toNat target_card_index target_card_stack
        else some (ReturnValue.MOVED, board) := by
  have hr : ¬ (longToInt (strtol target_token) < 1 ∨
      ((NUMBER_OF_STACKS : Nat) : Int) < longToInt (strtol target_token)) := by
    show ¬ (longToInt (strtol target_token) < 1 ∨ (7 : Int) < longToInt (strtol target_token))
    omega
  unfold moveCommand
  simp only [htoken, hto, ne_eq, not_true_eq_false, if_false, hr, hcard]

/-- Either `moveCommand` returns `MOVED`, or it leaves the board as it was. -/
theorem moveCommand_result {board board1 : Board} {command : List String}
    {return_value : ReturnValue}
    (h : moveCommand board command = some (return_value, board1)) :
    return_value = ReturnValue.MOVED ∨ board1 = board := by
  unfold moveCommand at h
  split at h
  · exact Or.inr (congrArg Prod.snd (Option.some.inj h)).symm
  · split at h
    · exact Or.inr (congrArg Prod.snd (Option.some.inj h)).symm
    · simp only at h
      split at h
      · exact Or.inr (congrArg Prod.snd (Option.some.inj h)).symm
      · split at h
        · split at h
          · exact Option.noConfusion h
          · exact Or.inr (congrArg Prod.snd (Option.some.inj h)).symm
          · exact Option.noConfusion h
          · split at h
            · rcases move_result h with hm | ⟨_, hb⟩
              · exact Or.inl hm
              · exact Or.inr hb
            · exact Or.inl (congrArg Prod.fst (Option.some.inj h)).symm
        · exact Or.inr (congrArg Prod.snd (Option.some.inj h)).symm

theorem reachable_runCommands {cards : List Int} {commands : List String} {board board1 : Board}
    (hr : Reachable cards board) (h : runCommands board commands = some board1) :
    Reachable cards board1 := by
  induction commands generalizing board with
  | nil =>
    have hb : board = board1 := Option.some.inj h
    rw [← hb]; exact hr
  | cons user_input rest ih =>
    unfold runCommands at h
    cases hc : handleCommand board user_input with
    | none => rw [hc] at h; exact Option.noConfusion h
    | some res =>
      obtain ⟨return_value, board2⟩ := res
      rw [hc] at h
      exact ih (Reachable.command board board2 user_input return_value hr hc) h

/-! ## Card tokens -/

/-- The value `strToCard` computes for a color token and the rank token at
position `k` of `ranks`, whatever `*card` held before. -/
theorem strToCard_valid (color rank : String) (card : Int) (k : Nat)
    (hcolor : color = "BLACK" ∨ color = "RED") (hrank : ranks[k]? = some rank) :
    strToCard color rank card =
      (ReturnValue.EVERYTHING_OK, 2 * (k : Int) + (if color = "BLACK" then 0 else 1)) := by
  have hk : k < 13 := by
    by_contra hc
    have hlen : ranks.length ≤ k := Nat.le_of_not_lt hc
    rw [List.getElem?_eq_none hlen] at hrank
    exact Option.noConfusion hrank
  rcases hcolor with hc | hc <;> subst hc <;> interval_cases k <;>
    (have hr := (Option.some.inj hrank).symm; subst hr; rfl)

/-- A valid card token pair is read whole, and its id is written over `*card`. -/
theorem readCard_valid (c : String × String) (rest : List String) (card : Int) (k : Nat)
    (hcolor : c.1 = "BLACK" ∨ c.1 = "RED") (hrank : ranks[k]? = some c.2) :
    readCard (c.1 :: c.2 :: rest) card = some (ReturnValue.EVERYTHING_OK, cardId c, rest) ∧
      0 ≤ cardId c ∧ cardId c ≤ 25 := by
  have hk : k < 13 := by
    by_contra hc
    have hlen : ranks.length ≤ k := Nat.le_of_not_lt hc
    rw [List.getElem?_eq_none hlen] at hrank
    exact Option.noConfusion hrank
  have hid : cardId c = 2 * (k : Int) + (if c.1 = "BLACK" then 0 else 1) := by
    unfold cardId
    rw [strToCard_valid c.1 c.2 0 k hcolor hrank]
  have hsize : ¬ (c.1.utf8ByteSize > 5 ∨ c.2.utf8ByteSize > 2) := by
    have h1 : c.1.utf8ByteSize ≤ 5 := by
      rcases hcolor with hc | hc <;> rw [hc] <;> decide
    have h2 : c.2.utf8ByteSize ≤ 2 := by
      interval_cases k <;>
        (have hr := (Option.some.inj hrank).symm; rw [hr]; decide)
    omega
  refine ⟨?_, ?_, ?_⟩
  · unfold readCard
    simp only [hsize, if_false, strToCard_valid c.1 c.2 card k hcolor hrank, hid]
  · rw [hid]; split <;> omega
  · rw [hid]; split <;> omega

/-- On the words of valid cards the loop of `readConfig` appends every card, in
order, whether or not an id repeats. -/
theorem readConfigLoop_valid (cards : List (String × String)) (rest : List String)
    (card : Int) (draw_stack : Doubly_Linked_List)
    (hvalid : ∀ c ∈ cards, (c.1 = "BLACK" ∨ c.1 = "RED") ∧ ∃ k : Nat, ranks[k]? = some c.2) :
    ∃ card1, readConfigLoop cards.length (cardWords cards ++ rest) card (List.replicate 26 0)
        draw_stack =
      some (ReturnValue.EVERYTHING_OK,
        (cards.map cardId).foldl (fun d x => append d x true) draw_stack, rest, card1) := by
  induction cards generalizing card draw_stack with
  | nil => exact ⟨card, rfl⟩
  | cons c cs ih =>
    obtain ⟨hcolor, k, hrank⟩ := hvalid c (List.mem_cons_self _ _)
    obtain ⟨hread, h0, h25⟩ := readCard_valid c (cardWords cs ++ rest) card k hcolor hrank
    obtain ⟨card1, hrec⟩ := ih (cardId c + 1) (append draw_stack (cardId c) true)
      (fun c1 hc1 => hvalid c1 (List.mem_cons_of_mem _ hc1))
    refine ⟨card1, ?_⟩
    have hneg : ¬ cardId c < 0 := by omega
    have hseen : (List.replicate 26 (0 : Int))[(cardId c).toNat]? = some 0 := by
      rw [List.getElem?_replicate]
      have : (cardId c).toNat < 26 := by omega
      simp [this]
    show readConfigLoop (cs.length + 1) (c.1 :: c.2 :: (cardWords cs ++ rest)) card
      (List.replicate 26 0) draw_stack = _
    simp only [readConfigLoop, hread, ne_eq, not_true_eq_false, if_false, hneg, hseen, if_true]
    exact hrec

/-- For every file of exactly 26 valid cards `readConfig` returns `EVERYTHING_OK`
and leaves the draw stack seeded with their ids in file order. -/
theorem readConfig_valid_cards (cards : List (String × String)) (card : Int)
    (hlen : cards.length = 26)
    (hvalid : ∀ c ∈ cards, (c.1 = "BLACK" ∨ c.1 = "RED") ∧ ∃ k : Nat, ranks[k]? = some c.2) :
    readConfig (cardWords cards) card =
      some (ReturnValue.EVERYTHING_OK, seedDrawstack (cards.map cardId)) := by
  obtain ⟨card1, hloop⟩ := readConfigLoop_valid cards [] card [] hvalid
  rw [hlen, List.append_nil] at hloop
  unfold readConfig
  rw [hloop]
  rfl

/-! ## List primitives -/

theorem setTailFace_concat (v : Bool) (l : Doubly_Linked_List) (a : Node) :
    setTailFace v (l ++ [a]) = l ++ [{ a with is_faced_up_ := v }] := by
  induction l with
  | nil => rfl
  | cons b rest ih =>
    cases rest with
    | nil => rfl
    | cons c rest1 =>
      show b :: setTailFace v (c :: (rest1 ++ [a])) = _
      rw [show setTailFace v (c :: (rest1 ++ [a])) = _ from ih]
      rfl

theorem push_eq (l : Doubly_Linked_List) (card : Int) : push l card = newNode card :: l := by
  cases l <;> rfl

theorem pop_nil : pop [] = (0, []) := rfl

theorem pop_concat (l : Doubly_Linked_List) (a : Node) :
    pop (l ++ [a]) = (a.card_value_, setTailFace true l) := by
  unfold pop
  rw [List.getLast?_concat, List.dropLast_concat]

theorem append_nil (card : Int) (isDrawstack : Bool) :
    append [] card isDrawstack = [⟨card, true⟩] := rfl

theorem append_concat (l : Doubly_Linked_List) (a : Node) (card : Int) (isDrawstack : Bool) :
    append (l ++ [a]) card isDrawstack =
      l ++ [if isDrawstack then { a with is_faced_up_ := false } else a, ⟨card, true⟩] := by
  have hne : ∃ b rest, l ++ [a] = b :: rest := by
    cases l with
    | nil => exact ⟨a, [], rfl⟩
    | cons b rest => exact ⟨b, rest ++ [a], rfl⟩
  obtain ⟨b, rest, hbr⟩ := hne
  cases isDrawstack with
  | true =>
    have h1 : append (l ++ [a]) card true =
        setTailFace false (l ++ [a]) ++ [⟨card, true⟩] := by
      rw [hbr]; rfl
    rw [h1, setTailFace_concat]
    simp
  | false =>
    have h1 : append (l ++ [a]) card false = (l ++ [a]) ++ [⟨card, true⟩] := by
      rw [hbr]; rfl
    rw [h1]
    simp

theorem rotateDrawstack_concat (l : Doubly_Linked_List) (a : Node) :
    rotateDrawstack (l ++ [a]) = ⟨a.card_value_, false⟩ :: setTailFace true l := by
  unfold rotateDrawstack
  rw [pop_concat, push_eq]
  rfl

theorem two_or_more_split (l : Doubly_Linked_List) (h : 2 ≤ l.length) :
    ∃ front under top, l = front ++ [under, top] := by
  rcases List.eq_nil_or_concat l with hnil | ⟨l1, top, hl⟩
  · rw [hnil] at h; exact absurd h (by decide)
  · rw [List.concat_eq_append] at hl
    rcases List.eq_nil_or_concat l1 with hnil1 | ⟨front, under, hl1⟩
    · rw [hl, hnil1] at h; simp at h
    · rw [List.concat_eq_append] at hl1
      refine ⟨front, under, top, ?_⟩
      rw [hl, hl1, List.append_assoc]
      rfl

/-! ## Face flags -/

theorem dropLast_setTailFace (v : Bool) (l : Doubly_Linked_List) :
    (setTailFace v l).dropLast = l.dropLast := by
  rcases List.eq_nil_or_concat l with hnil | ⟨front, a, hl⟩
  · rw [hnil]; rfl
  · rw [List.concat_eq_append] at hl
    rw [hl, setTailFace_concat, List.dropLast_concat, List.dropLast_concat]

theorem hiddenBelowTail_of_all_hidden {l : Doubly_Linked_List}
    (h : ∀ n ∈ l, n.is_faced_up_ = false) : HiddenBelowTail l :=
  fun n hn => h n (List.dropLast_subset l hn)

theorem hiddenBelowTail_setTailFace {v : Bool} {l : Doubly_Linked_List}
    (h : HiddenBelowTail l) : HiddenBelowTail (setTailFace v l) := by
  unfold HiddenBelowTail
  rw [dropLast_setTailFace]
  exact h

theorem hiddenBelowTail_concat {front : Doubly_Linked_List} {a : Node} :
    HiddenBelowTail (front ++ [a]) ↔ ∀ n ∈ front, n.is_faced_up_ = false := by
  unfold HiddenBelowTail
  rw [List.dropLast_concat]

theorem hiddenBelowTail_append {l : Doubly_Linked_List} (card : Int)
    (h : HiddenBelowTail l) : HiddenBelowTail (append l card true) := by
  rcases List.eq_nil_or_concat l with hnil | ⟨front, a, hl⟩
  · rw [hnil]
    intro n hn
    simp [append, newNode, List.dropLast] at hn
  · rw [List.concat_eq_append] at hl
    rw [hl] at h ⊢
    rw [append_concat]
    have hfront := hiddenBelowTail_concat.mp h
    rw [show front ++ [if true = true then { a with is_faced_up_ := false } else a,
        (⟨card, true⟩ : Node)] =
      (front ++ [{ a with is_faced_up_ := false }]) ++ [(⟨card, true⟩ : Node)] by simp]
    rw [hiddenBelowTail_concat]
    intro n hn
    rcases List.mem_append.mp hn with h1 | h1
    · exact hfront n h1
    · rw [List.mem_singleton] at h1
      rw [h1]

theorem hiddenBelowTail_seedDrawstack (cards : List Int) :
    HiddenBelowTail (seedDrawstack cards) := by
  have key : ∀ (cs : List Int) (l : Doubly_Linked_List), HiddenBelowTail l →
      HiddenBelowTail (cs.foldl (fun draw_stack card => append draw_stack card true) l) := by
    intro cs
    induction cs with
    | nil => intro l hl; exact hl
    | cons c rest ih => intro l hl; exact ih _ (hiddenBelowTail_append c hl)
  exact key cards [] (fun n hn => by simp [List.dropLast] at hn)

theorem hiddenBelowTail_pop {l : Doubly_Linked_List} (h : HiddenBelowTail l) :
    HiddenBelowTail (pop l).2 := by
  rcases List.eq_nil_or_concat l with hnil | ⟨front, a, hl⟩
  · rw [hnil, pop_nil]
    intro n hn
    simp [List.dropLast] at hn
  · rw [List.concat_eq_append] at hl
    rw [hl] at h ⊢
    rw [pop_concat]
    exact hiddenBelowTail_setTailFace
      (hiddenBelowTail_of_all_hidden (hiddenBelowTail_concat.mp h))

theorem hiddenBelowTail_rotateDrawstack {l : Doubly_Linked_List} (h : HiddenBelowTail l) :
    HiddenBelowTail (rotateDrawstack l) := by
  rcases List.eq_nil_or_concat l with hnil | ⟨front, a, hl⟩
  · rw [hnil]
    intro n hn
    simp [rotateDrawstack, pop, push, List.dropLast] at hn
  · rw [List.concat_eq_append] at hl
    rw [hl] at h ⊢
    rw [rotateDrawstack_concat]
    have hfront := hiddenBelowTail_concat.mp h
    rcases List.eq_nil_or_concat front with hnil1 | ⟨front1, b, hl1⟩
    · rw [hnil1]
      intro n hn
      simp [setTailFace, List.dropLast] at hn
    · rw [List.concat_eq_append] at hl1
      rw [hl1, setTailFace_concat,
        show (⟨a.card_value_, false⟩ : Node) :: (front1 ++ [{ b with is_faced_up_ := true }]) =
          ((⟨a.card_value_, false⟩ : Node) :: front1) ++ [{ b with is_faced_up_ := true }] by simp,
        hiddenBelowTail_concat]
      intro n hn
      rcases List.mem_cons.mp hn with h1 | h1
      · rw [h1]
      · exact hfront n (by rw [hl1]; exact List.mem_append_left _ h1)

theorem allFaceUp_nil : AllFaceUp [] := fun n hn => by simp at hn

theorem allFaceUp_append {l1 l2 : Doubly_Linked_List} (h1 : AllFaceUp l1) (h2 : AllFaceUp l2) :
    AllFaceUp (l1 ++ l2) := by
  intro n hn
  rcases List.mem_append.mp hn with h | h
  · exact h1 n h
  · exact h2 n h

theorem allFaceUp_take {l : Doubly_Linked_List} (i : Nat) (h : AllFaceUp l) :
    AllFaceUp (l.take i) :=
  fun n hn => h n (List.mem_of_mem_take hn)

theorem allFaceUp_drop {l : Doubly_Linked_List} (i : Nat) (h : AllFaceUp l) :
    AllFaceUp (l.drop i) :=
  fun n hn => h n (List.mem_of_mem_drop hn)

theorem allFaceUp_setTailFace {l : Doubly_Linked_List} (h : AllFaceUp l) :
    AllFaceUp (setTailFace true l) := by
  rcases List.eq_nil_or_concat l with hnil | ⟨front, a, hl⟩
  · rw [hnil]; exact allFaceUp_nil
  · rw [List.concat_eq_append] at hl
    rw [hl] at h ⊢
    rw [setTailFace_concat]
    intro n hn
    rcases List.mem_append.mp hn with h1 | h1
    · exact h n (List.mem_append_left _ h1)
    · rw [List.mem_singleton] at h1
      rw [h1]

theorem allFaceUp_append_card {l : Doubly_Linked_List} (card : Int) (h : AllFaceUp l) :
    AllFaceUp (append l card false) := by
  rcases List.eq_nil_or_concat l with hnil | ⟨front, a, hl⟩
  · rw [hnil, append_nil]
    intro n hn
    rw [List.mem_singleton] at hn
    rw [hn]
  · rw [List.concat_eq_append] at hl
    rw [hl] at h ⊢
    rw [append_concat]
    intro n hn
    rcases List.mem_append.mp hn with h1 | h1
    · exact h n (List.mem_append_left _ h1)
    · simp only [Bool.false_eq_true, if_false, List.mem_cons, List.mem_singleton,
        List.not_mem_nil, or_false] at h1
      rcases h1 with h2 | h2
      · rw [h2]; exact h a (List.mem_append_right _ (List.mem_singleton.mpr rfl))
      · rw [h2]

theorem faceInvariant_arrangeStep {board : Board} {col : Nat}
    (hcol : 1 ≤ col ∧ col < NUMBER_OF_STACKS) (h : FaceInvariant board) :
    FaceInvariant (arrangeStep board col) := by
  obtain ⟨hdraw, hup⟩ := h
  have hc0 : (0 : Nat) ≠ col := by omega
  unfold arrangeStep
  constructor
  · show HiddenBelowTail (Board.pile _ 0)
    rw [Board.pile_set_ne _ _ (Ne.symm hc0), Board.pile_set_eq _ _ (by decide)]
    exact hiddenBelowTail_pop hdraw
  · intro k hk1 hk7
    by_cases hkc : k = col
    · subst hkc
      rw [Board.pile_set_eq _ _ hk7, Board.pile_set_ne _ _ hc0]
      exact allFaceUp_append_card _ (hup k hk1 hk7)
    · have hk0 : (0 : Nat) ≠ k := by omega
      rw [Board.pile_set_ne _ _ (Ne.symm hkc), Board.pile_set_ne _ _ hk0]
      exact hup k hk1 hk7

theorem arrangeCards_eq_foldl (board : Board) :
    arrangeCards board = [1, 2, 3, 4, 2, 3, 4, 3, 4, 4].foldl arrangeStep board := by
  simp [arrangeCards, List.range', List.foldl]

theorem faceInvariant_dealtBoard (cards : List Int) : FaceInvariant (dealtBoard cards) := by
  have hfold : ∀ (cols : List Nat) (board : Board),
      (∀ c ∈ cols, 1 ≤ c ∧ c < NUMBER_OF_STACKS) → FaceInvariant board →
        FaceInvariant (cols.foldl arrangeStep board) := by
    intro cols
    induction cols with
    | nil => intro board _ hb; exact hb
    | cons c rest ih =>
      intro board hc hb
      exact ih _ (fun c1 hc1 => hc c1 (List.mem_cons_of_mem _ hc1))
        (faceInvariant_arrangeStep (hc c (List.mem_cons_self _ _)) hb)
  unfold dealtBoard
  rw [arrangeCards_eq_foldl]
  apply hfold
  · decide
  · constructor
    · exact hiddenBelowTail_seedDrawstack cards
    · intro k hk1 hk7
      have hk : k < 7 := hk7
      interval_cases k <;> exact allFaceUp_nil

/-- What `handleCommand` can do to the board: nothing, rotate the draw pile, or
what `moveCommand` does for the split command. -/
theorem handleCommand_cases {board board1 : Board} {user_input : String}
    {return_value : ReturnValue}
    (h : handleCommand board user_input = some (return_value, board1)) :
    board1 = board ∨
      board1 = board.set DRAWSTACK (rotateDrawstack (board.pile DRAWSTACK)) ∨
      ∃ command, moveCommand board command = some (return_value, board1) := by
  unfold handleCommand at h
  split at h
  · split at h
    · exact Or.inl (congrArg Prod.snd (Option.some.inj h)).symm
    · split at h
      · exact Or.inr (Or.inr ⟨_, h⟩)
      · split at h
        · exact Or.inr (Or.inl (congrArg Prod.snd (Option.some.inj h)).symm)
        · split at h
          · exact Or.inl (congrArg Prod.snd (Option.some.inj h)).symm
          · split at h
            · exact Or.inl (congrArg Prod.snd (Option.some.inj h)).symm
            · exact Or.inl (congrArg Prod.snd (Option.some.inj h)).symm
  · exact Or.inl (congrArg Prod.snd (Option.some.inj h)).symm

/-- What `moveCommand` can do to the board: nothing, or a `move` onto a target
of number at least 1 that `checkMove` accepted from another pile. -/
theorem moveCommand_cases {board board1 : Board} {command : List String}
    {return_value : ReturnValue}
    (h : moveCommand board command = some (return_value, board1)) :
    board1 = board ∨
      ∃ (target_card : Int) (target_stack i s : Nat), 1 ≤ target_stack ∧
        checkMove board target_card target_stack = some (true, some (i, s)) ∧
        s ≠ target_stack ∧ move board target_stack i s = some (return_value, board1) := by
  unfold moveCommand at h
  split at h
  · exact Or.inl (congrArg Prod.snd (Option.some.inj h)).symm
  · split at h
    · exact Or.inl (congrArg Prod.snd (Option.some.inj h)).symm
    · simp only at h
      split at h
      · exact Or.inl (congrArg Prod.snd (Option.some.inj h)).symm
      · rename_i target_token _ _ hrange
        split at h
        · rename_i target_card _
          split at h
          · exact Option.noConfusion h
          · exact Or.inl (congrArg Prod.snd (Option.some.inj h)).symm
          · exact Option.noConfusion h
          · rename_i i s hcm
            split at h
            · rename_i hne
              refine Or.inr ⟨target_card, _, i, s, ?_, hcm, hne, h⟩
              have h1 : ¬ longToInt (strtol target_token) < 1 := fun hc => hrange (Or.inl hc)
              omega
            · exact Or.inl (congrArg Prod.snd (Option.some.inj h)).symm
        · exact Or.inl (congrArg Prod.snd (Option.some.inj h)).symm

theorem mem_dropLast_of_getElem? {l : Doubly_Linked_List} {i : Nat} {n : Node}
    (hn : l[i]? = some n) (hi : i + 1 < l.length) : n ∈ l.dropLast := by
  rw [List.dropLast_eq_take]
  apply List.getElem?_mem (n := i)
  rw [List.getElem?_take_of_lt (by omega)]
  exact hn

theorem take_subset_dropLast {l : Doubly_Linked_List} {i : Nat} (hi : i < l.length) :
    ∀ n ∈ l.take i, n ∈ l.dropLast := by
  intro n hn
  rw [List.dropLast_eq_take]
  exact List.take_subset_take_left l (by omega) hn

/-- In a pile hidden below its tail, a face-up entry is the tail: the run from it
is that single entry. -/
theorem hiddenBelowTail_face_up_is_tail {l : Doubly_Linked_List} {i : Nat} {n : Node}
    (h : HiddenBelowTail l) (hn : l[i]? = some n) (hup : n.is_faced_up_ = true) :
    i + 1 = l.length ∧ l.drop i = [n] := by
  have hi : i < l.length := by
    by_contra hc
    rw [List.getElem?_eq_none (Nat.le_of_not_lt hc)] at hn
    exact Option.noConfusion hn
  have hlast : i + 1 = l.length := by
    by_contra hc
    have hhid := h n (mem_dropLast_of_getElem? hn (by omega))
    rw [hup] at hhid
    exact Bool.noConfusion hhid
  refine ⟨hlast, ?_⟩
  rw [List.drop_eq_getElem_cons hi, hlast, List.drop_length]
  rw [List.getElem?_eq_getElem hi] at hn
  rw [Option.some.inj hn]

theorem faceInvariant_move {board board1 : Board} {target_card : Int}
    {target_stack i s : Nat} {return_value : ReturnValue}
    (hinv : FaceInvariant board) (ht : 1 ≤ target_stack)
    (hcm : checkMove board target_card target_stack = some (true, some (i, s)))
    (hne : s ≠ target_stack)
    (hmv : move board target_stack i s = some (return_value, board1)) :
    FaceInvariant board1 := by
  have hsc := checkMove_loc hcm
  obtain ⟨_, _, _, _, _, hd, _, _⟩ := checkMove_true hcm
  obtain ⟨hs7, _, hi, ⟨n, hn, hnm⟩, _⟩ := searchCard_some hsc
  rw [move_eq hs7 hi hd] at hmv
  have hb := (congrArg Prod.snd (Option.some.inj hmv)).symm
  simp only at hb
  rw [hb]
  obtain ⟨hdraw, hup⟩ := hinv
  have ht0 : target_stack ≠ 0 := by omega
  constructor
  · show HiddenBelowTail (Board.pile _ 0)
    rw [Board.pile_set_ne _ _ ht0]
    by_cases hs0 : s = 0
    · subst hs0
      rw [Board.pile_set_eq _ _ hs7]
      exact hiddenBelowTail_setTailFace
        (hiddenBelowTail_of_all_hidden (fun m hm => hdraw m (take_subset_dropLast hi m hm)))
    · rw [Board.pile_set_ne _ _ hs0]
      exact hdraw
  · intro k hk1 hk7
    by_cases hkt : k = target_stack
    · subst hkt
      rw [Board.pile_set_eq _ _ hk7, Board.pile_set_ne _ _ hne]
      apply allFaceUp_append (hup k hk1 hk7)
      by_cases hs0 : s = 0
      · subst hs0
        obtain ⟨_, hrun⟩ := hiddenBelowTail_face_up_is_tail hdraw hn hnm.2
        rw [hrun]
        intro m hm
        rw [List.mem_singleton] at hm
        rw [hm]
        exact hnm.2
      · exact allFaceUp_drop i (hup s (by omega) hs7)
    · rw [Board.pile_set_ne _ _ (Ne.symm hkt)]
      by_cases hks : k = s
      · subst hks
        rw [Board.pile_set_eq _ _ hk7]
        exact allFaceUp_setTailFace (allFaceUp_take i (hup k hk1 hk7))
      · rw [Board.pile_set_ne _ _ (Ne.symm hks)]
        exact hup k hk1 hk7

theorem faceInvariant_rotate {board : Board} (hinv : FaceInvariant board) :
    FaceInvariant (board.set DRAWSTACK (rotateDrawstack (board.pile DRAWSTACK))) := by
  obtain ⟨hdraw, hup⟩ := hinv
  constructor
  · rw [Board.pile_set_eq _ _ (by decide)]
    exact hiddenBelowTail_rotateDrawstack hdraw
  · intro k hk1 hk7
    have hk0 : (0 : Nat) ≠ k := by omega
    rw [Board.pile_set_ne _ _ hk0]
    exact hup k hk1 hk7

theorem faceInvariant_handleCommand {board board1 : Board} {user_input : String}
    {return_value : ReturnValue} (hinv : FaceInvariant board)
    (h : handleCommand board user_input = some (return_value, board1)) :
    FaceInvariant board1 := by
  rcases handleCommand_cases h with hb | hb | ⟨command, hmc⟩
  · rw [hb]; exact hinv
  · rw [hb]; exact faceInvariant_rotate hinv
  · rcases moveCommand_cases hmc with hb | ⟨target_card, target_stack, i, s, ht, hcm, hne, hmv⟩
    · rw [hb]; exact hinv
    · exact faceInvariant_move hinv ht hcm hne hmv

/-- Every board the game loop can hold keeps the face-flag invariant. -/
theorem reachable_faceInvariant {cards : List Int} {board : Board}
    (h : Reachable cards board) : FaceInvariant board := by
  induction h with
  | dealt => exact faceInvariant_dealtBoard cards
  | command board0 board1 user_input return_value _ hstep ih =>
    exact faceInvariant_handleCommand ih hstep

/-! ## Moves in play -/

theorem strToCardLoop_range (color rank : String) (rs : List String) (index : Int)
    (h0 : 0 ≤ index) (hlen : index + (rs.length : Int) ≤ 13) :
    0 ≤ strToCardLoop color rank 0 index rs ∧ strToCardLoop color rank 0 index rs ≤ 25 := by
  induction rs generalizing index with
  | nil => simp [strToCardLoop]
  | cons r rest ih =>
    simp only [List.length_cons, Nat.cast_add, Nat.cast_one] at hlen
    unfold strToCardLoop
    split
    · split <;> omega
    · exact ih (index + 1) (by omega) (by omega)

/-- The card `moveCommand` searches for is an id in 0..25. -/
theorem strToCard_range (color rank : String) :
    0 ≤ (strToCard color rank 0).2 ∧ (strToCard color rank 0).2 ≤ 25 := by
  unfold strToCard
  split
  · simp
  · exact strToCardLoop_range color rank ranks 0 (by decide) (by decide)

/-- What `moveCommand` can do to the board: nothing, or a `move` of a card with
an id in 0..25 onto a target of number at least 1 that `checkMove` accepted from
another pile. -/
theorem moveCommand_cases_card {board board1 : Board} {command : List String}
    {return_value : ReturnValue}
    (h : moveCommand board command = some (return_value, board1)) :
    board1 = board ∨
      ∃ (target_card : Int) (target_stack i s : Nat), 1 ≤ target_stack ∧
        (0 ≤ target_card ∧ target_card ≤ 25) ∧
        checkMove board target_card target_stack = some (true, some (i, s)) ∧
        s ≠ target_stack ∧ move board target_stack i s = some (return_value, board1) := by
  unfold moveCommand at h
  split at h
  · exact Or.inl (congrArg Prod.snd (Option.some.inj h)).symm
  · split at h
    · exact Or.inl (congrArg Prod.snd (Option.some.inj h)).symm
    · simp only at h
      split at h
      · exact Or.inl (congrArg Prod.snd (Option.some.inj h)).symm
      · rename_i target_token _ _ hrange
        split at h
        · rename_i target_card hcard
          have hr := strToCard_range (command.getD MOVE_CARD_COLOR "")
            (command.getD MOVE_CARD_RANK "")
          rw [hcard] at hr
          split at h
          · exact Option.noConfusion h
          · exact Or.inl (congrArg Prod.snd (Option.some.inj h)).symm
          · exact Option.noConfusion h
          · rename_i i s hcm
            split at h
            · rename_i hne
              refine Or.inr ⟨target_card, _, i, s, ?_, hr, hcm, hne, h⟩
              have h1 : ¬ longToInt (strtol target_token) < 1 := fun hc => hrange (Or.inl hc)
              omega
            · exact Or.inl (congrArg Prod.snd (Option.some.inj h)).symm
        · exact Or.inl (congrArg Prod.snd (Option.some.inj h)).symm

theorem twoCardsInOrder_deposit_step {bottom_card top_card : Int} {target_stack : Nat}
    (hs : NUMBER_OF_GAMESTACKS < target_stack)
    (h : twoCardsInOrder bottom_card top_card target_stack = true) :
    top_card = bottom_card + 2 := by
  have hs1 : 4 < target_stack := hs
  have hs2 : ¬ target_stack ≤ 4 := by omega
  simp only [twoCardsInOrder, TWO, NUMBER_OF_GAMESTACKS, hs1, hs2, false_and, true_and,
    false_or] at h
  split at h
  · exact absurd h (by decide)
  · rename_i hc
    by_contra hne
    exact hc (Or.inr (by omega))

theorem twoCardsInOrder_gamestack_step {bottom_card top_card : Int} {target_stack : Nat}
    (hs : target_stack ≤ NUMBER_OF_GAMESTACKS)
    (h : twoCardsInOrder bottom_card top_card target_stack = true) :
    top_card.tdiv 2 < bottom_card.tdiv 2 := by
  have hs1 : target_stack ≤ 4 := hs
  have hs2 : ¬ target_stack > 4 := by omega
  simp only [twoCardsInOrder, TWO, NUMBER_OF_GAMESTACKS, hs1, hs2, false_and, true_and,
    or_false] at h
  split at h
  · exact absurd h (by decide)
  · rename_i hc
    by_contra hne
    exact hc (Or.inr (by omega))

/-- The board after a `move` that `moveCommand` makes: the source keeps the
entries before the located card, the target receives the run, the other piles
stay; with what `checkMove` has tested. -/
theorem move_piles {board board1 : Board} {target_card : Int} {target_stack i s : Nat}
    {return_value : ReturnValue}
    (hcm : checkMove board target_card target_stack = some (true, some (i, s)))
    (hne : s ≠ target_stack)
    (hmv : move board target_stack i s = some (return_value, board1)) :
    s ≤ NUMBER_OF_GAMESTACKS ∧ target_stack < NUMBER_OF_STACKS ∧ i < (board.pile s).length ∧
      board1.pile s = setTailFace true ((board.pile s).take i) ∧
      board1.pile target_stack = board.pile target_stack ++ (board.pile s).drop i ∧
      (∀ k, k ≠ s → k ≠ target_stack → board1.pile k = board.pile k) ∧
      RunInOrder target_stack ((board.pile s).drop i) ∧
      (∃ n, (board.pile s)[i]? = some n ∧ n.card_value_ = target_card) ∧
      ((board.pile target_stack = [] ∧
          ((target_stack ≤ NUMBER_OF_GAMESTACKS ∧ target_card ≥ BLACK_KING) ∨
            (NUMBER_OF_GAMESTACKS < target_stack ∧ target_card < NUMBER_OF_CARDFACES))) ∨
        ∃ tail, (board.pile target_stack).getLast? = some tail ∧
          twoCardsInOrder tail.card_value_ target_card target_stack = true) := by
  obtain ⟨i1, s1, hloc, hsc, hs4, hd, hrun, hplace⟩ := checkMove_true hcm
  have hloc1 : i1 = i ∧ s1 = s := by
    have := Option.some.inj hloc
    simp only [Prod.mk.injEq] at this
    exact ⟨this.1.symm, this.2.symm⟩
  obtain ⟨hi1, hs1⟩ := hloc1
  subst hi1 hs1
  obtain ⟨hs7, _, hi, ⟨n, hn, hnm⟩, _⟩ := searchCard_some hsc
  rw [move_eq hs7 hi hd] at hmv
  have hb := (congrArg Prod.snd (Option.some.inj hmv)).symm
  simp only at hb
  refine ⟨hs4, hd, hi, ?_, ?_, ?_, hrun, ⟨n, hn, hnm.1⟩, ?_⟩
  · rw [hb, Board.pile_set_ne _ _ (Ne.symm hne), Board.pile_set_eq _ _ hs7]
  · rw [hb, Board.pile_set_eq _ _ hd, Board.pile_set_ne _ _ hne]
  · intro k hks hkt
    rw [hb, Board.pile_set_ne _ _ (Ne.symm hkt), Board.pile_set_ne _ _ (Ne.symm hks)]
  · rcases hplace with hp | ⟨tail, ht, hp⟩
    · exact Or.inl hp
    · rcases hp with hp | hp
      · exact Or.inr ⟨tail, ht, hp⟩
      · exact absurd hp.symm hne

/-! ## Deposit stacks -/

/-- A run that is in order for a deposit stack ascends in steps of 2. -/
theorem deposit_run_values {target_stack : Nat} (hs : NUMBER_OF_GAMESTACKS < target_stack)
    (run : Doubly_Linked_List) (hrun : RunInOrder target_stack run) :
    ∀ (a : Node), run[0]? = some a → ∀ (j : Nat) (m : Node), run[j]? = some m →
      m.card_value_ = a.card_value_ + 2 * (j : Int) := by
  induction run with
  | nil => intro a ha; simp at ha
  | cons x rest ih =>
    intro a ha j m hm
    have hax : x = a := by simpa using ha
    subst hax
    cases j with
    | zero =>
      have hmx : x = m := by simpa using hm
      subst hmx
      simp
    | succ j1 =>
      cases rest with
      | nil => simp at hm
      | cons y rest1 =>
        unfold RunInOrder at hrun ih
        rw [List.chain'_cons] at hrun
        have hstep := twoCardsInOrder_deposit_step hs hrun.1
        have hrec := ih hrun.2 y (by simp) j1 m (by simpa using hm)
        rw [hrec, hstep]
        push_cast
        ring

theorem ascendingFromAce_nil : AscendingFromAce [] :=
  ⟨0, Or.inl rfl, fun j n hn => by simp at hn⟩

theorem getElem?_lt_length {l : Doubly_Linked_List} {j : Nat} {n : Node}
    (h : l[j]? = some n) : j < l.length := by
  by_contra hc
  rw [List.getElem?_eq_none (Nat.le_of_not_lt hc)] at h
  exact Option.noConfusion h

theorem depositInvariant_move {board board1 : Board} {target_card : Int}
    {target_stack i s : Nat} {return_value : ReturnValue}
    (hinv : DepositInvariant board) (hcard : 0 ≤ target_card)
    (hcm : checkMove board target_card target_stack = some (true, some (i, s)))
    (hne : s ≠ target_stack)
    (hmv : move board target_stack i s = some (return_value, board1)) :
    DepositInvariant board1 := by
  obtain ⟨hs4, hd, hi, _, htarget, hother, hrun, ⟨n, hn, hnc⟩, hplace⟩ :=
    move_piles hcm hne hmv
  intro k hk4 hk7
  have hks : k ≠ s := by
    intro hc
    rw [hc] at hk4
    exact absurd hs4 (Nat.not_le.mpr hk4)
  by_cases hkt : k = target_stack
  · subst hkt
    rw [htarget]
    have hhead : ((board.pile s).drop i)[0]? = some n := by
      rw [List.getElem?_drop]
      exact hn
    have hvals := deposit_run_values hk4 _ hrun n hhead
    obtain ⟨c, hc, hold⟩ := hinv k hk4 hk7
    rcases hplace with ⟨hnil, hp⟩ | ⟨tail, htail, hp⟩
    · rcases hp with ⟨hp1, _⟩ | ⟨_, hp2⟩
      · exact absurd hp1 (Nat.not_le.mpr hk4)
      · have hp3 : target_card < 2 := hp2
        refine ⟨target_card, by omega, ?_⟩
        intro j m hm
        rw [hnil, List.nil_append] at hm
        rw [hvals j m hm, hnc]
    · have hstep := twoCardsInOrder_deposit_step hk4 hp
      rw [List.getLast?_eq_getElem?] at htail
      have hlen := getElem?_lt_length htail
      have htv := hold _ tail htail
      refine ⟨c, hc, ?_⟩
      intro j m hm
      by_cases hj : j < (board.pile k).length
      · rw [List.getElem?_append_left hj] at hm
        exact hold j m hm
      · have hj1 : (board.pile k).length ≤ j := Nat.le_of_not_lt hj
        rw [List.getElem?_append_right hj1] at hm
        rw [hvals _ m hm, hnc, hstep, htv]
        have e1 : ((j - (board.pile k).length : Nat) : Int) = (j : Int) - (board.pile k).length :=
          Int.ofNat_sub hj1
        have e2 : (((board.pile k).length - 1 : Nat) : Int) = ((board.pile k).length : Int) - 1 :=
          Int.ofNat_sub (by omega)
        rw [e1, e2]
        ring
  · rw [hother k hks hkt]
    exact hinv k hk4 hk7

theorem arrangeStep_pile_ne (board : Board) {col k : Nat} (hk0 : k ≠ 0) (hkc : k ≠ col) :
    (arrangeStep board col).pile k = board.pile k := by
  unfold arrangeStep
  rw [Board.pile_set_ne _ _ (Ne.symm hkc), Board.pile_set_ne _ _ (Ne.symm hk0)]

theorem depositInvariant_dealtBoard (cards : List Int) : DepositInvariant (dealtBoard cards) := by
  have hfold : ∀ (cols : List Nat) (board : Board) (k : Nat),
      (∀ c ∈ cols, c ≤ NUMBER_OF_GAMESTACKS) → NUMBER_OF_GAMESTACKS < k →
        (cols.foldl arrangeStep board).pile k = board.pile k := by
    intro cols
    induction cols with
    | nil => intro board k _ _; rfl
    | cons c rest ih =>
      intro board k hc hk
      have hc4 := hc c (List.mem_cons_self _ _)
      have h4 : (4 : Nat) < k := hk
      have hc5 : c ≤ 4 := hc4
      rw [List.foldl_cons, ih _ k (fun c1 hc1 => hc c1 (List.mem_cons_of_mem _ hc1)) hk]
      exact arrangeStep_pile_ne board (by omega) (by omega)
  intro k hk4 hk7
  unfold dealtBoard
  rw [arrangeCards_eq_foldl, hfold _ _ k (by decide) hk4]
  have h4 : (4 : Nat) < k := hk4
  have h7 : k < 7 := hk7
  have hnil : (⟨[seedDrawstack cards, [], [], [], [], [], []], rfl⟩ : Board).pile k = [] := by
    interval_cases k <;> rfl
  rw [hnil]
  exact ascendingFromAce_nil

theorem depositInvariant_handleCommand {board board1 : Board} {user_input : String}
    {return_value : ReturnValue} (hinv : DepositInvariant board)
    (h : handleCommand board user_input = some (return_value, board1)) :
    DepositInvariant board1 := by
  rcases handleCommand_cases h with hb | hb | ⟨command, hmc⟩
  · rw [hb]; exact hinv
  · rw [hb]
    intro k hk4 hk7
    have h4 : (4 : Nat) < k := hk4
    have hk0 : (0 : Nat) ≠ k := by omega
    rw [Board.pile_set_ne _ _ hk0]
    exact hinv k hk4 hk7
  · rcases moveCommand_cases_card hmc with
      hb | ⟨target_card, target_stack, i, s, _, hr, hcm, hne, hmv⟩
    · rw [hb]; exact hinv
    · exact depositInvariant_move hinv hr.1 hcm hne hmv

/-- Every board the game loop can hold has deposit stacks that ascend from an Ace. -/
theorem reachable_depositInvariant {cards : List Int} {board : Board}
    (h : Reachable cards board) : DepositInvariant board := by
  induction h with
  | dealt => exact depositInvariant_dealtBoard cards
  | command board0 board1 user_input return_value _ hstep ih =>
    exact depositInvariant_handleCommand ih hstep

/-! ## Pile sizes -/

theorem append_map_card (l : Doubly_Linked_List) (card : Int) (isDrawstack : Bool) :
    (append l card isDrawstack).map Node.card_value_ = l.map Node.card_value_ ++ [card] := by
  cases l with
  | nil => rfl
  | cons a rest =>
    cases isDrawstack with
    | false =>
      show List.map Node.card_value_ ((a :: rest) ++ [_]) = _
      rw [List.map_append]; rfl
    | true =>
      show List.map Node.card_value_ (setTailFace false (a :: rest) ++ [_]) = _
      rw [List.map_append, setTailFace_map_card]; rfl

theorem append_length (l : Doubly_Linked_List) (card : Int) (isDrawstack : Bool) :
    (append l card isDrawstack).length = l.length + 1 := by
  have h := congrArg List.length (append_map_card l card isDrawstack)
  simpa using h

theorem seedDrawstack_map_card (cards : List Int) :
    (seedDrawstack cards).map Node.card_value_ = cards := by
  have hfold : ∀ (cs : List Int) (acc : Doubly_Linked_List),
      (cs.foldl (fun draw_stack card => append draw_stack card true) acc).map Node.card_value_ =
        acc.map Node.card_value_ ++ cs := by
    intro cs
    induction cs with
    | nil => intro acc; simp
    | cons c rest ih =>
      intro acc
      rw [List.foldl_cons, ih, append_map_card]
      simp
  have h := hfold cards []
  simpa [seedDrawstack] using h

theorem pop_map_card (l : Doubly_Linked_List) :
    (pop l).2.map Node.card_value_ = (l.map Node.card_value_).dropLast := by
  unfold pop
  cases h : l.getLast? with
  | none =>
    have hnil := (getLast?_eq_none_iff_nil l).mp h
    subst hnil
    rfl
  | some tail =>
    show (setTailFace true l.dropLast).map Node.card_value_ = _
    rw [setTailFace_map_card, List.map_dropLast]

theorem pop_length (l : Doubly_Linked_List) : (pop l).2.length = l.length - 1 := by
  have h := congrArg List.length (pop_map_card l)
  simpa using h

theorem pop_card (l : Doubly_Linked_List) :
    (pop l).1 = 0 ∨ (pop l).1 ∈ l.map Node.card_value_ := by
  unfold pop
  cases h : l.getLast? with
  | none => exact Or.inl rfl
  | some tail =>
    exact Or.inr (List.mem_map_of_mem _ (List.mem_of_getLast?_eq_some h))

theorem idsInRange_nil : IdsInRange [] := fun x hx => by simp at hx

theorem idsInRange_pop {l : Doubly_Linked_List} (h : IdsInRange l) : IdsInRange (pop l).2 := by
  intro x hx
  rw [pop_map_card] at hx
  exact h x (List.dropLast_subset _ hx)

theorem pop_card_range {l : Doubly_Linked_List} (h : IdsInRange l) :
    0 ≤ (pop l).1 ∧ (pop l).1 ≤ 25 := by
  rcases pop_card l with h0 | hmem
  · rw [h0]; decide
  · exact h _ hmem

theorem idsInRange_append_card {l : Doubly_Linked_List} {card : Int} (isDrawstack : Bool)
    (h : IdsInRange l) (hc : 0 ≤ card ∧ card ≤ 25) : IdsInRange (append l card isDrawstack) := by
  intro x hx
  rw [append_map_card, List.mem_append, List.mem_singleton] at hx
  rcases hx with hx | hx
  · exact h x hx
  · rw [hx]; exact hc

theorem arrangeStep_pile_draw (board : Board) {col : Nat} (hc : col ≠ 0) :
    (arrangeStep board col).pile 0 = (pop (board.pile 0)).2 := by
  unfold arrangeStep
  rw [Board.pile_set_ne _ _ hc]
  exact Board.pile_set_eq _ _ (by decide)

theorem arrangeStep_pile_col (board : Board) {col : Nat} (hc : col ≠ 0)
    (hc7 : col < NUMBER_OF_STACKS) :
    (arrangeStep board col).pile col =
      append (board.pile col) (pop (board.pile 0)).1 false := by
  unfold arrangeStep
  rw [Board.pile_set_eq _ _ hc7]
  show append (Board.pile _ col) _ false = _
  rw [Board.pile_set_ne _ _ (Ne.symm hc)]

theorem arrangeStep_idsInRange {board : Board} {col : Nat}
    (hcol : 1 ≤ col ∧ col < NUMBER_OF_STACKS)
    (h : ∀ k, k < NUMBER_OF_STACKS → IdsInRange (board.pile k)) :
    ∀ k, k < NUMBER_OF_STACKS → IdsInRange ((arrangeStep board col).pile k) := by
  have hc0 : col ≠ 0 := by omega
  intro k hk
  by_cases hk0 : k = 0
  · subst hk0
    rw [arrangeStep_pile_draw board hc0]
    exact idsInRange_pop (h 0 hk)
  · by_cases hkc : k = col
    · subst hkc
      rw [arrangeStep_pile_col board hc0 hk]
      exact idsInRange_append_card false (h k hk) (pop_card_range (h 0 (by decide)))
    · rw [arrangeStep_pile_ne board hk0 hkc]
      exact h k hk

theorem arrangeStep_length (board : Board) {col k : Nat}
    (hcol : 1 ≤ col ∧ col < NUMBER_OF_STACKS) (hk : 1 ≤ k) :
    ((arrangeStep board col).pile k).length =
      (board.pile k).length + (if col = k then 1 else 0) := by
  have hc0 : col ≠ 0 := by omega
  by_cases hkc : k = col
  · subst hkc
    rw [arrangeStep_pile_col board hc0 hcol.2, append_length]
    simp
  · rw [arrangeStep_pile_ne board (by omega) hkc]
    have : ¬ col = k := fun hc => hkc hc.symm
    simp [this]

/-- The piles after a series of deal steps: sizes and ids. -/
theorem arrangeSteps_sizes (cols : List Nat) :
    ∀ (board : Board), (∀ c ∈ cols, 1 ≤ c ∧ c < NUMBER_OF_STACKS) →
      (∀ k, k < NUMBER_OF_STACKS → IdsInRange (board.pile k)) →
      ((cols.foldl arrangeStep board).pile 0).length = (board.pile 0).length - cols.length ∧
      (∀ k, k < NUMBER_OF_STACKS → IdsInRange ((cols.foldl arrangeStep board).pile k)) ∧
      ∀ k, 1 ≤ k →
        ((cols.foldl arrangeStep board).pile k).length = (board.pile k).length + cols.count k := by
  induction cols with
  | nil =>
    intro board _ hids
    exact ⟨by simp, hids, fun k _ => by simp⟩
  | cons c rest ih =>
    intro board hc hids
    have hcc := hc c (List.mem_cons_self _ _)
    have hc0 : c ≠ 0 := by omega
    obtain ⟨h1, h2, h3⟩ := ih (arrangeStep board c)
      (fun c1 hc1 => hc c1 (List.mem_cons_of_mem _ hc1)) (arrangeStep_idsInRange hcc hids)
    rw [List.foldl_cons]
    refine ⟨?_, h2, ?_⟩
    · rw [h1, arrangeStep_pile_draw board hc0, pop_length, List.length_cons]
      omega
    · intro k hk
      rw [h3 k hk, arrangeStep_length board hcc hk, List.count_cons]
      simp only [beq_iff_eq]
      have e : (k = c) ↔ (c = k) := eq_comm
      by_cases hkc : c = k
      · simp [hkc]; omega
      · have hkc2 : ¬ k = c := fun h => hkc h.symm
        simp [hkc, hkc2]

theorem rankDescending_of_length_le_one {l : List Int} (h : l.length ≤ 1) : RankDescending l := by
  unfold RankDescending
  cases l with
  | nil => exact List.chain'_nil
  | cons a rest =>
    cases rest with
    | nil => exact List.chain'_singleton a
    | cons b rest1 => simp at h

/-- The sizes and ids of the dealt board. -/
theorem dealtBoard_sizes (cards : List Int) (hlen : cards.length = 26)
    (hids : ∀ c ∈ cards, 0 ≤ c ∧ c ≤ 25) :
    ((dealtBoard cards).pile 0).length ≤ 16 ∧
      (∀ k, k < NUMBER_OF_STACKS → IdsInRange ((dealtBoard cards).pile k)) ∧
      ∀ k, 1 ≤ k → k ≤ 4 → ((dealtBoard cards).pile k).length ≤ 4 := by
  have hstart : ∀ k, k < NUMBER_OF_STACKS →
      IdsInRange ((⟨[seedDrawstack cards, [], [], [], [], [], []], rfl⟩ : Board).pile k) := by
    intro k hk
    have hk7 : k < 7 := hk
    interval_cases k
    · intro x hx
      have hx1 : x ∈ (seedDrawstack cards).map Node.card_value_ := hx
      rw [seedDrawstack_map_card] at hx1
      exact hids x hx1
    all_goals exact idsInRange_nil
  obtain ⟨h1, h2, h3⟩ := arrangeSteps_sizes [1, 2, 3, 4, 2, 3, 4, 3, 4, 4]
    ⟨[seedDrawstack cards, [], [], [], [], [], []], rfl⟩ (by decide) hstart
  have hseed : ((⟨[seedDrawstack cards, [], [], [], [], [], []], rfl⟩ : Board).pile 0).length =
      26 := by
    show (seedDrawstack cards).length = 26
    have h := congrArg List.length (seedDrawstack_map_card cards)
    rw [List.length_map, hlen] at h
    exact h
  have hd : dealtBoard cards =
      List.foldl arrangeStep ⟨[seedDrawstack cards, [], [], [], [], [], []], rfl⟩
        [1, 2, 3, 4, 2, 3, 4, 3, 4, 4] := arrangeCards_eq_foldl _
  rw [hd]
  refine ⟨?_, h2, ?_⟩
  · rw [h1, hseed]
    decide
  · intro k hk1 hk4
    have hcount : List.count k [1, 2, 3, 4, 2, 3, 4, 3, 4, 4] ≤ 4 := by
      interval_cases k <;> decide
    have hstart0 :
        ((⟨[seedDrawstack cards, [], [], [], [], [], []], rfl⟩ : Board).pile k).length = 0 := by
      interval_cases k <;> rfl
    rw [h3 k hk1, hstart0]
    omega

theorem sizeInvariant_dealtBoard (cards : List Int) (hlen : cards.length = 26)
    (hids : ∀ c ∈ cards, 0 ≤ c ∧ c ≤ 25) : SizeInvariant (dealtBoard cards) := by
  obtain ⟨h1, h2, h3⟩ := dealtBoard_sizes cards hlen hids
  generalize dealtBoard cards = board at h1 h2 h3
  refine ⟨h1, h2, ?_⟩
  intro k hk1 hk4
  refine rankDescending_of_length_le_one ?_
  rw [List.length_drop, List.length_map]
  have := h3 k hk1 hk4
  omega

theorem idsInRange_take {l : Doubly_Linked_List} (i : Nat) (h : IdsInRange l) :
    IdsInRange (setTailFace true (l.take i)) := by
  intro x hx
  rw [setTailFace_map_card, List.map_take] at hx
  exact h x (List.take_subset _ _ hx)

theorem idsInRange_append_drop {l1 l2 : Doubly_Linked_List} (i : Nat) (h1 : IdsInRange l1)
    (h2 : IdsInRange l2) : IdsInRange (l1 ++ l2.drop i) := by
  intro x hx
  rw [List.map_append, List.map_drop, List.mem_append] at hx
  rcases hx with hx | hx
  · exact h1 x hx
  · exact h2 x (List.drop_subset _ _ hx)

/-- A chain from the fourth entry on stays one when a chain is attached that
continues the old tail. -/
theorem rankDescending_drop_append {l1 l2 : List Int} (h1 : RankDescending (l1.drop 3))
    (h2 : RankDescending l2)
    (hlink : ∀ x ∈ l1.getLast?, ∀ y ∈ l2.head?, y.tdiv 2 < x.tdiv 2) :
    RankDescending ((l1 ++ l2).drop 3) := by
  unfold RankDescending at h1 h2 ⊢
  by_cases hlen : 3 < l1.length
  · rw [List.drop_append_of_le_length (Nat.le_of_lt hlen)]
    apply List.Chain'.append h1 h2
    intro x hx y hy
    rw [List.getLast?_drop, if_neg (Nat.not_le.mpr hlen)] at hx
    exact hlink x hx y hy
  · rw [List.drop_append_eq_append_drop, List.drop_eq_nil_of_le (Nat.le_of_not_lt hlen),
      List.nil_append]
    exact List.Chain'.drop h2 _

theorem rankDescending_of_run {target_stack : Nat} (hs : target_stack ≤ NUMBER_OF_GAMESTACKS)
    {run : Doubly_Linked_List} (h : RunInOrder target_stack run) :
    RankDescending (run.map Node.card_value_) := by
  unfold RankDescending
  rw [List.chain'_map]
  exact List.Chain'.imp (fun a b hab => twoCardsInOrder_gamestack_step hs hab) h

theorem sizeInvariant_move {board board1 : Board} {target_card : Int}
    {target_stack i s : Nat} {return_value : ReturnValue}
    (hinv : SizeInvariant board) (ht : 1 ≤ target_stack)
    (hcm : checkMove board target_card target_stack = some (true, some (i, s)))
    (hne : s ≠ target_stack)
    (hmv : move board target_stack i s = some (return_value, board1)) :
    SizeInvariant board1 := by
  obtain ⟨hs4, hd, hi, hsource, htarget, hother, hrun, ⟨n, hn, hnc⟩, hplace⟩ :=
    move_piles hcm hne hmv
  obtain ⟨hdraw, hids, hchain⟩ := hinv
  have hs7 : s < NUMBER_OF_STACKS := by
    have h4 : s ≤ 4 := hs4
    show s < 7
    omega
  refine ⟨?_, ?_, ?_⟩
  · show (board1.pile 0).length ≤ 16
    have hdraw16 : (board.pile 0).length ≤ 16 := hdraw
    by_cases hs0 : s = 0
    · subst hs0
      rw [hsource, setTailFace_length, List.length_take]
      omega
    · rw [hother 0 (Ne.symm hs0) (by omega)]
      exact hdraw16
  · intro k hk
    by_cases hkt : k = target_stack
    · subst hkt
      rw [htarget]
      exact idsInRange_append_drop i (hids k hk) (hids s hs7)
    · by_cases hks : k = s
      · subst hks
        rw [hsource]
        exact idsInRange_take i (hids k hk)
      · rw [hother k hks hkt]
        exact hids k hk
  · intro k hk1 hk4
    by_cases hkt : k = target_stack
    · subst hkt
      rw [htarget, List.map_append]
      apply rankDescending_drop_append (hchain k hk1 hk4) (rankDescending_of_run hk4 hrun)
      intro x hx y hy
      rw [List.getLast?_map] at hx
      rw [List.head?_map, List.head?_drop, hn] at hy
      have hy1 : n.card_value_ = y := by simpa using hy
      rcases hplace with ⟨hnil, _⟩ | ⟨tail, htail, hp⟩
      · rw [hnil] at hx
        simp at hx
      · rw [htail] at hx
        have hx1 : tail.card_value_ = x := by simpa using hx
        rw [← hx1, ← hy1, hnc]
        exact twoCardsInOrder_gamestack_step hk4 hp
    · by_cases hks : k = s
      · subst hks
        rw [hsource, setTailFace_map_card, List.map_take, List.drop_take]
        exact List.Chain'.take (hchain k hk1 hk4) _
      · rw [hother k hks hkt]
        exact hchain k hk1 hk4

theorem sizeInvariant_rotate {board : Board} (hinv : SizeInvariant board) :
    SizeInvariant (board.set DRAWSTACK (rotateDrawstack (board.pile DRAWSTACK))) := by
  obtain ⟨hdraw, hids, hchain⟩ := hinv
  have hdraw16 : (board.pile 0).length ≤ 16 := hdraw
  have hrot : rotateDrawstack (board.pile 0) =
      newNode (pop (board.pile 0)).1 :: (pop (board.pile 0)).2 := by
    unfold rotateDrawstack
    exact push_eq _ _
  refine ⟨?_, ?_, ?_⟩
  · show (Board.pile _ 0).length ≤ 16
    rw [Board.pile_set_eq _ _ (by decide)]
    show (rotateDrawstack (board.pile 0)).length ≤ 16
    rw [hrot, List.length_cons, pop_length]
    omega
  · intro k hk
    by_cases hk0 : k = 0
    · subst hk0
      rw [Board.pile_set_eq _ _ (by decide)]
      show IdsInRange (rotateDrawstack (board.pile 0))
      rw [hrot]
      intro x hx
      rw [List.map_cons, List.mem_cons] at hx
      rcases hx with hx | hx
      · rw [hx]
        exact pop_card_range (hids 0 (by decide))
      · exact idsInRange_pop (hids 0 (by decide)) x hx
    · rw [Board.pile_set_ne _ _ (Ne.symm hk0)]
      exact hids k hk
  · intro k hk1 hk4
    have hk0 : (0 : Nat) ≠ k := by omega
    rw [Board.pile_set_ne _ _ hk0]
    exact hchain k hk1 hk4

theorem sizeInvariant_handleCommand {board board1 : Board} {user_input : String}
    {return_value : ReturnValue} (hinv : SizeInvariant board)
    (h : handleCommand board user_input = some (return_value, board1)) :
    SizeInvariant board1 := by
  rcases handleCommand_cases h with hb | hb | ⟨command, hmc⟩
  · rw [hb]; exact hinv
  · rw [hb]; exact sizeInvariant_rotate hinv
  · rcases moveCommand_cases hmc with hb | ⟨target_card, target_stack, i, s, ht, hcm, hne, hmv⟩
    · rw [hb]; exact hinv
    · exact sizeInvariant_move hinv ht hcm hne hmv

/-- Every board the game loop can hold, started from 26 ids in 0..25, keeps the
size invariant. -/
theorem reachable_sizeInvariant {cards : List Int} {board : Board}
    (hlen : cards.length = 26) (hids : ∀ c ∈ cards, 0 ≤ c ∧ c ≤ 25)
    (h : Reachable cards board) : SizeInvariant board := by
  induction h with
  | dealt => exact sizeInvariant_dealtBoard cards hlen hids
  | command board0 board1 user_input return_value _ hstep ih =>
    exact sizeInvariant_handleCommand ih hstep

/-- A chain of strictly descending ranks over ids in 0..25 has at most 13 entries. -/
theorem rankDescending_length {l : List Int} (h : RankDescending l)
    (hids : ∀ x ∈ l, 0 ≤ x ∧ x ≤ 25) : l.length ≤ 13 := by
  have key : ∀ (l : List Int), RankDescending l → (∀ x ∈ l, 0 ≤ x ∧ x ≤ 25) →
      ∀ a, l.head? = some a → (l.length : Int) ≤ a.tdiv 2 + 1 := by
    intro l
    induction l with
    | nil => intro _ _ a ha; simp at ha
    | cons x rest ih =>
      intro hch hr a ha
      have hax : x = a := by simpa using ha
      subst hax
      cases rest with
      | nil =>
        have hx := hr x (List.mem_cons_self _ _)
        have e : x.tdiv 2 = x / 2 := Int.tdiv_eq_ediv hx.1 (by decide)
        rw [e]
        simp only [List.length_singleton, Nat.cast_one]
        omega
      | cons y rest1 =>
        unfold RankDescending at hch ih
        rw [List.chain'_cons] at hch
        have hrec := ih hch.2 (fun z hz => hr z (List.mem_cons_of_mem _ hz)) y rfl
        have hstep := hch.1
        simp only [List.length_cons, Nat.cast_add, Nat.cast_one] at hrec ⊢
        omega
  cases l with
  | nil => simp
  | cons a rest =>
    have hlen := key (a :: rest) h hids a rfl
    have ha := hids a (List.mem_cons_self _ _)
    have e : a.tdiv 2 = a / 2 := Int.tdiv_eq_ediv ha.1 (by decide)
    rw [e] at hlen
    have h12 : a / 2 ≤ 12 := by omega
    have : ((a :: rest).length : Int) ≤ 13 := by omega
    exact_mod_cast this

/-- A pile that ascends from an Ace over ids in 0..25 has at most 13 entries. -/
theorem ascendingFromAce_length {l : Doubly_Linked_List} (h : AscendingFromAce l)
    (hids : IdsInRange l) : l.length ≤ 13 := by
  by_contra hc
  have h13 : 13 < l.length := Nat.lt_of_not_le hc
  obtain ⟨c, hc01, hval⟩ := h
  have hget : l[13]? = some (l.get ⟨13, h13⟩) := List.getElem?_eq_getElem h13
  have hv := hval 13 _ hget
  have hmem : (l.get ⟨13, h13⟩).card_value_ ∈ l.map Node.card_value_ :=
    List.mem_map_of_mem _ (List.get_mem l 13 h13)
  have hr := hids _ hmem
  rw [hv] at hr
  have : ((13 : Nat) : Int) = 13 := rfl
  omega

/-- On a board with the size invariant and ascending deposit stacks no pile has
more than `BOARD_SIZE` entries. -/
theorem pile_length_le_board_size {board : Board} (hsize : SizeInvariant board)
    (hdep : DepositInvariant board) (k : Nat) : (board.pile k).length ≤ BOARD_SIZE := by
  obtain ⟨hdraw, hids, hchain⟩ := hsize
  show (board.pile k).length ≤ 16
  by_cases hk7 : k < 7
  · by_cases hk0 : k = 0
    · subst hk0; exact hdraw
    · by_cases hk4 : k ≤ 4
      · have hch := hchain k (by omega) hk4
        have hr : ∀ x ∈ ((board.pile k).map Node.card_value_).drop 3, 0 ≤ x ∧ x ≤ 25 :=
          fun x hx => hids k hk7 x (List.drop_subset _ _ hx)
        have hl := rankDescending_length hch hr
        rw [List.length_drop, List.length_map] at hl
        omega
      · have hl := ascendingFromAce_length (hdep k (by show 4 < k; omega) hk7) (hids k hk7)
        omega
  · rw [Board.pile_eq_nil board (Nat.le_of_not_lt hk7)]
    simp

/-! ## The printed board -/

theorem printGameLoop_getElem? (rows : Nat) :
    ∀ (head : List Doubly_Linked_List) (j : Nat), j < rows →
      (printGameLoop rows head)[j]? = some (head.map (fun p => p[j]?)) := by
  induction rows with
  | zero => intro head j hj; exact absurd hj (Nat.not_lt_zero _)
  | succ rows ih =>
    intro head j hj
    unfold printGameLoop
    cases j with
    | zero =>
      rw [List.getElem?_cons_zero]
      congr 1
      apply List.map_congr_left
      intro p _
      exact List.head?_eq_getElem? p
    | succ j1 =>
      rw [List.getElem?_cons_succ, ih _ j1 (Nat.lt_of_succ_lt_succ hj), List.map_map]
      congr 1
      apply List.map_congr_left
      intro p _
      simp

/-- An entry in one of the first `BOARD_SIZE` rows of a pile is printed in its
row and column. -/
theorem printGame_cell {board : Board} {k j : Nat} {n : Node} (hj : j < BOARD_SIZE)
    (hn : (board.pile k)[j]? = some n) :
    ∃ row, (printGame board)[j]? = some row ∧ row[k]? = some (some n) := by
  have hk : k < NUMBER_OF_STACKS := by
    by_contra hc
    rw [Board.pile_eq_nil board (Nat.le_of_not_lt hc)] at hn
    simp at hn
  refine ⟨_, printGameLoop_getElem? BOARD_SIZE board.piles j hj, ?_⟩
  rw [List.getElem?_map, Board.getElem?_pile board hk]
  show some ((board.pile k)[j]?) = some (some n)
  rw [hn]

/-! ## Claims -/

/-- C1: for every board whose piles hold at most 16 entries, every card id in
0..25 and every destination index 0..6, `checkMove` returns, and it returns true
exactly when (1) the card has a first face-up entry, at pile `s` and offset `i`,
(2) `s` is at most 4, (3) the run from offset `i` to the tail of pile `s` is in
order for the destination, and (4) the destination is empty and the card is a
King with a destination of index at most 4 or an Ace with a destination of index
above 4, or the destination is non-empty and its tail and the card are in order
or the destination is pile `s`.  When it returns true the reported pile and
offset are those of (1). -/
theorem checkMove_iff_four_steps (board : Board) (target_card : Int) (target_stack : Nat)
    (hlen : ∀ p ∈ board.piles, p.length ≤ BOARD_SIZE)
    (hcard : 0 ≤ target_card ∧ target_card ≤ 25)
    (hdest : target_stack < NUMBER_OF_STACKS) :
    ∃ move_valid loc, checkMove board target_card target_stack = some (move_valid, loc) ∧
      (move_valid = true ↔
        ∃ s i, FirstFaceUp board target_card s i ∧ s ≤ 4 ∧
          RunInOrder target_stack ((board.pile s).drop i) ∧
          ((board.pile target_stack = [] ∧
              ((target_card / 2 = 12 ∧ target_stack ≤ 4) ∨
                (target_card / 2 = 0 ∧ 4 < target_stack))) ∨
            ∃ tail, (board.pile target_stack).getLast? = some tail ∧
              (twoCardsInOrder tail.card_value_ target_card target_stack = true ∨
                target_stack = s))) ∧
      (move_valid = true → ∃ s i, FirstFaceUp board target_card s i ∧ loc = some (i, s)) := by
  obtain ⟨hc0, hc25⟩ := hcard
  cases hsc : searchCard board target_card with
  | none =>
    refine ⟨false, none, checkMove_not_found hsc, ?_, ?_⟩
    · simp only [Bool.false_eq_true, false_iff]
      rintro ⟨s, i, hf, _⟩
      rw [(searchCard_iff board target_card i s hlen).mpr hf] at hsc
      exact Option.noConfusion hsc
    · intro hc; exact absurd hc (by decide)
  | some loc =>
    obtain ⟨i, s⟩ := loc
    have hfirst : FirstFaceUp board target_card s i :=
      (searchCard_iff board target_card i s hlen).mp hsc
    have huniq : ∀ s1 i1, FirstFaceUp board target_card s1 i1 → s1 = s ∧ i1 = i := by
      intro s1 i1 hf
      have h1 := (searchCard_iff board target_card i1 s1 hlen).mpr hf
      rw [hsc] at h1
      have h2 := Option.some.inj h1
      exact ⟨(congrArg Prod.snd h2).symm, (congrArg Prod.fst h2).symm⟩
    by_cases hs : s ≤ NUMBER_OF_GAMESTACKS
    · obtain ⟨move_valid, hcm, hiff⟩ := checkMove_value hsc hs hdest
      refine ⟨move_valid, some (i, s), hcm, ?_, fun _ => ⟨s, i, hfirst, rfl⟩⟩
      rw [hiff]
      unfold PlacementOk
      have hk : target_card ≥ BLACK_KING ↔ target_card / 2 = 12 := by
        show target_card ≥ 24 ↔ _
        omega
      have ha : target_card < NUMBER_OF_CARDFACES ↔ target_card / 2 = 0 := by
        show target_card < 2 ↔ _
        omega
      constructor
      · rintro ⟨hrun, hplace⟩
        refine ⟨s, i, hfirst, hs, hrun, ?_⟩
        rcases hplace with ⟨hnil, hk1 | ha1⟩ | htail
        · exact Or.inl ⟨hnil, Or.inl ⟨hk.mp hk1.2, hk1.1⟩⟩
        · exact Or.inl ⟨hnil, Or.inr ⟨ha.mp ha1.2, ha1.1⟩⟩
        · exact Or.inr htail
      · rintro ⟨s1, i1, hf, _, hrun, hplace⟩
        obtain ⟨e1, e2⟩ := huniq s1 i1 hf
        subst e1 e2
        refine ⟨hrun, ?_⟩
        rcases hplace with ⟨hnil, hk1 | ha1⟩ | htail
        · exact Or.inl ⟨hnil, Or.inl ⟨hk1.2, hk.mpr hk1.1⟩⟩
        · exact Or.inl ⟨hnil, Or.inr ⟨ha1.2, ha.mpr ha1.1⟩⟩
        · exact Or.inr htail
    · have hs2 : NUMBER_OF_GAMESTACKS < s := Nat.lt_of_not_le hs
      refine ⟨false, some (i, s), checkMove_found_deposit hsc hs2, ?_, ?_⟩
      · simp only [Bool.false_eq_true, false_iff]
        rintro ⟨s1, i1, hf, hs1, _⟩
        obtain ⟨e1, _⟩ := huniq s1 i1 hf
        subst e1
        exact hs hs1
      · intro hc; exact absurd hc (by decide)

/-- C2: for card ids in 0..25, `twoCardsInOrder` is the ordering rule table: for a
destination of index at most 4, different colors and a strictly higher rank
below; for a destination of index above 4, equal colors and the rank on top one
more than the rank below (rank = id / 2, color = id % 2). -/
theorem twoCardsInOrder_rule_table (bottom_card top_card : Int) (target_stack : Nat)
    (hb : 0 ≤ bottom_card ∧ bottom_card ≤ 25) (ht : 0 ≤ top_card ∧ top_card ≤ 25) :
    (target_stack ≤ 4 →
      (twoCardsInOrder bottom_card top_card target_stack = true ↔
        bottom_card % 2 ≠ top_card % 2 ∧ bottom_card / 2 > top_card / 2)) ∧
    (target_stack > 4 →
      (twoCardsInOrder bottom_card top_card target_stack = true ↔
        bottom_card % 2 = top_card % 2 ∧ top_card / 2 = bottom_card / 2 + 1)) :=
  ⟨fun hs => twoCardsInOrder_gamestack hb.1 ht.1 hs,
    fun hs => twoCardsInOrder_deposit hb.1 ht.1 hs⟩

theorem checkMove_iff_four_steps_witness :
    (∀ p ∈ sampleBoard.piles, p.length ≤ BOARD_SIZE) ∧ (0 ≤ (24 : Int) ∧ (24 : Int) ≤ 25) ∧
      3 < NUMBER_OF_STACKS ∧
      ∃ move_valid loc, checkMove sampleBoard 24 3 = some (move_valid, loc) ∧
        (move_valid = true → ∃ s i, FirstFaceUp sampleBoard 24 s i ∧ loc = some (i, s)) :=
  ⟨by decide, by decide, by decide,
    match checkMove_iff_four_steps sampleBoard 24 3 (by decide) (by decide) (by decide) with
    | ⟨move_valid, loc, h, _, hloc⟩ => ⟨move_valid, loc, h, hloc⟩⟩

theorem twoCardsInOrder_rule_table_witness :
    (twoCardsInOrder 25 22 2 = true ↔
      (25 : Int) % 2 ≠ (22 : Int) % 2 ∧ (25 : Int) / 2 > (22 : Int) / 2) ∧
    (twoCardsInOrder 0 2 5 = true ↔
      (0 : Int) % 2 = (2 : Int) % 2 ∧ (2 : Int) / 2 = (0 : Int) / 2 + 1) :=
  ⟨(twoCardsInOrder_rule_table 25 22 2 (by decide) (by decide)).1 (by decide),
    (twoCardsInOrder_rule_table 0 2 5 (by decide) (by decide)).2 (by decide)⟩

/-- C3: when the destination pile is empty and the card has been located
face-up in a draw or game stack with a run that is in order, `checkMove` returns
true if and only if the destination has index at most 4 and the card is a King
(rank 12), or the destination has index above 4 and the card is an Ace (rank 0). -/
theorem checkMove_empty_target_iff (board : Board) (target_card : Int)
    (target_stack i s : Nat)
    (hcard : 0 ≤ target_card ∧ target_card ≤ 25)
    (hdest : target_stack < NUMBER_OF_STACKS)
    (hempty : board.pile target_stack = [])
    (hloc : searchCard board target_card = some (i, s))
    (hsrc : s ≤ 4)
    (hrun : RunInOrder target_stack ((board.pile s).drop i)) :
    ∃ move_valid, checkMove board target_card target_stack = some (move_valid, some (i, s)) ∧
      (move_valid = true ↔
        (target_stack ≤ 4 ∧ target_card / 2 = 12) ∨
          (4 < target_stack ∧ target_card / 2 = 0)) := by
  obtain ⟨hc0, hc25⟩ := hcard
  obtain ⟨move_valid, hcm, hiff⟩ := checkMove_value hloc hsrc hdest
  refine ⟨move_valid, hcm, ?_⟩
  rw [hiff]
  unfold PlacementOk
  have hk : target_card ≥ BLACK_KING ↔ target_card / 2 = 12 := by
    show target_card ≥ 24 ↔ _
    omega
  have ha : target_card < NUMBER_OF_CARDFACES ↔ target_card / 2 = 0 := by
    show target_card < 2 ↔ _
    omega
  constructor
  · rintro ⟨_, ⟨_, hk1 | ha1⟩ | ⟨tail, htail, _⟩⟩
    · exact Or.inl ⟨hk1.1, hk.mp hk1.2⟩
    · exact Or.inr ⟨ha1.1, ha.mp ha1.2⟩
    · rw [hempty] at htail
      exact Option.noConfusion htail
  · rintro (⟨h1, h2⟩ | ⟨h1, h2⟩)
    · exact ⟨hrun, Or.inl ⟨hempty, Or.inl ⟨h1, hk.mpr h2⟩⟩⟩
    · exact ⟨hrun, Or.inl ⟨hempty, Or.inr ⟨h1, ha.mpr h2⟩⟩⟩

theorem checkMove_empty_target_iff_witness :
    checkMove sampleBoard 24 3 = some (true, some (1, 0)) ∧
      checkMove sampleBoard 3 3 = some (false, some (0, 1)) := by
  obtain ⟨v1, h1, e1⟩ := checkMove_empty_target_iff sampleBoard 24 3 1 0 (by decide) (by decide)
    (by decide) (by decide) (by decide) ((checkOrderLoop_iff _ _).mp (by decide))
  obtain ⟨v2, h2, e2⟩ := checkMove_empty_target_iff sampleBoard 3 3 0 1 (by decide) (by decide)
    (by decide) (by decide) (by decide) ((checkOrderLoop_iff _ _).mp (by decide))
  have hv1 : v1 = true := e1.mpr (Or.inl ⟨by decide, by decide⟩)
  have hv2 : v2 = false := by
    cases v2 with
    | false => rfl
    | true => exact absurd (e2.mp rfl) (by decide)
  subst hv1 hv2
  exact ⟨h1, h2⟩

/-- C4: if the card located by `searchCard` lies in a deposit stack (index 5 or
6), `checkMove` returns false, whatever the destination. -/
theorem checkMove_out_of_deposit_false (board : Board) (target_card : Int)
    (target_stack i s : Nat)
    (hloc : searchCard board target_card = some (i, s))
    (hs : s = DEPOSIT_STACK_1 ∨ s = DEPOSIT_STACK_2) :
    checkMove board target_card target_stack = some (false, some (i, s)) := by
  apply checkMove_found_deposit hloc
  rcases hs with h | h <;> rw [h] <;> decide

theorem checkMove_out_of_deposit_false_witness :
    searchCard sampleBoard 0 = some (0, 5) ∧
      checkMove sampleBoard 0 6 = some (false, some (0, 5)) :=
  ⟨by decide, checkMove_out_of_deposit_false sampleBoard 0 6 0 5 (by decide) (Or.inl rfl)⟩

/-- C5: ordering law.  For a `MOVE` command with a well-formed `TO`, target
number and color whose card `searchCard` locates at offset `i` of pile `s`:
whenever `moveCommand` changes the board, it returned `MOVED`, the target pile
has received exactly the run from offset `i` to the tail of pile `s`, and every
adjacent pair of that run was in order for the target; and if some adjacent pair
of that run is not in order for the target, `moveCommand` returns
`INVALID_MOVE_COMMAND` and leaves the board as it was. -/
theorem moveCommand_ordering_law (board : Board) (command : List String)
    (target_token : String) (target_card : Int) (i s : Nat)
    (htoken : command[MOVE_TARGET_STACK]? = some target_token)
    (hto : command[MOVE_TO]? = some "TO")
    (hrange : 1 ≤ longToInt (strtol target_token) ∧ longToInt (strtol target_token) ≤ 7)
    (hcard : strToCard (command.getD MOVE_CARD_COLOR "") (command.getD MOVE_CARD_RANK "") 0 =
      (ReturnValue.EVERYTHING_OK, target_card))
    (hloc : searchCard board target_card = some (i, s)) :
    (∀ return_value board1, moveCommand board command = some (return_value, board1) →
      board1 ≠ board →
        return_value = ReturnValue.MOVED ∧
          board1.pile (longToInt (strtol target_token)).toNat =
            board.pile (longToInt (strtol target_token)).toNat ++ (board.pile s).drop i ∧
          RunInOrder (longToInt (strtol target_token)).toNat ((board.pile s).drop i)) ∧
    (¬ RunInOrder (longToInt (strtol target_token)).toNat ((board.pile s).drop i) →
      moveCommand board command = some (ReturnValue.INVALID_MOVE_COMMAND, board)) := by
  obtain ⟨hs7, _, hi, _⟩ := searchCard_some hloc
  constructor
  · intro return_value board1 h hne
    rw [moveCommand_parsed htoken hto hrange hcard] at h
    cases hcm : checkMove board target_card (longToInt (strtol target_token)).toNat with
    | none => rw [hcm] at h; exact Option.noConfusion h
    | some res =>
      obtain ⟨move_valid, loc⟩ := res
      cases move_valid with
      | false =>
        rw [hcm] at h
        exact absurd (congrArg Prod.snd (Option.some.inj h)).symm hne
      | true =>
        obtain ⟨i1, s1, hl, hsc, _, hd, hrun, _⟩ := checkMove_true hcm
        rw [hloc] at hsc
        have hpair := Option.some.inj hsc
        have hi1 : i = i1 := congrArg Prod.fst hpair
        have hs1 : s = s1 := congrArg Prod.snd hpair
        subst hi1 hs1 hl
        rw [hcm] at h
        simp only at h
        split at h
        · rename_i hst
          rw [move_eq hs7 hi hd] at h
          have h1 := Option.some.inj h
          have hb : board1 = _ := (congrArg Prod.snd h1).symm
          refine ⟨(congrArg Prod.fst h1).symm, ?_, hrun⟩
          rw [hb, Board.pile_set_eq _ _ hd, Board.pile_set_ne _ _ hst]
        · exact absurd (congrArg Prod.snd (Option.some.inj h)).symm hne
  · intro hnot
    have hloop : ¬ checkOrderLoop (longToInt (strtol target_token)).toNat
        ((board.pile s).drop i) = true :=
      fun hc => hnot ((checkOrderLoop_iff _ _).mp hc)
    rw [moveCommand_parsed htoken hto hrange hcard]
    by_cases hs : s ≤ NUMBER_OF_GAMESTACKS
    · rw [checkMove_found hloc hs, if_neg hloop]
    · rw [checkMove_found_deposit hloc (Nat.lt_of_not_le hs)]

theorem moveCommand_ordering_law_witness :
    moveCommand sampleBoard ["MOVE", "RED", "3", "TO", "3"] =
        some (ReturnValue.INVALID_MOVE_COMMAND, sampleBoard) ∧
      RunInOrder 3 [⟨25, true⟩, ⟨22, true⟩] :=
  ⟨(moveCommand_ordering_law sampleBoard ["MOVE", "RED", "3", "TO", "3"] "3" 5 0 4
      (by decide) (by decide) (by decide) (by decide) (by decide)).2
      (fun hc => absurd ((checkOrderLoop_iff _ _).mpr hc) (by decide)),
    ((moveCommand_ordering_law sampleBoard ["MOVE", "RED", "K", "TO", "3"] "3" 25 0 2
      (by decide) (by decide) (by decide) (by decide) (by decide)).1
      ReturnValue.MOVED
      ⟨[[⟨10, false⟩, ⟨24, true⟩], [⟨3, true⟩], [], [⟨25, true⟩, ⟨22, true⟩],
        [⟨5, true⟩, ⟨20, true⟩], [⟨0, true⟩], []], rfl⟩
      (by decide) (by decide)).2.2⟩

/-- C6, as the code has it: a `MOVE` of a card to the pile that holds it returns
`MOVED` and leaves every pile unchanged when that pile is a game stack (1..4)
and the run from the card to the pile's tail is in order for a game stack. -/
theorem moveCommand_same_pile (board : Board) (command : List String)
    (target_token : String) (target_card : Int) (i s : Nat)
    (htoken : command[MOVE_TARGET_STACK]? = some target_token)
    (hto : command[MOVE_TO]? = some "TO")
    (hcard : strToCard (command.getD MOVE_CARD_COLOR "") (command.getD MOVE_CARD_RANK "") 0 =
      (ReturnValue.EVERYTHING_OK, target_card))
    (hloc : searchCard board target_card = some (i, s))
    (hsame : longToInt (strtol target_token) = (s : Int))
    (hgame : 1 ≤ s ∧ s ≤ NUMBER_OF_GAMESTACKS)
    (hrun : RunInOrder s ((board.pile s).drop i)) :
    moveCommand board command = some (ReturnValue.MOVED, board) := by
  obtain ⟨hs7, _, hi, _⟩ := searchCard_some hloc
  have hrange : 1 ≤ longToInt (strtol target_token) ∧ longToInt (strtol target_token) ≤ 7 := by
    rw [hsame]
    have h4 : s ≤ 4 := hgame.2
    omega
  have hnat : (longToInt (strtol target_token)).toNat = s := by
    rw [hsame]; exact Int.toNat_ofNat s
  rw [moveCommand_parsed htoken hto hrange hcard, hnat]
  obtain ⟨move_valid, hcm, hiff⟩ := checkMove_value hloc hgame.2 hs7
  have hne : (board.pile s).getLast? ≠ none := by
    intro hc
    rw [(getLast?_eq_none_iff_nil _).mp hc] at hi
    exact absurd hi (Nat.not_lt_zero _)
  have hv : move_valid = true := by
    apply hiff.mpr
    refine ⟨hrun, Or.inr ?_⟩
    cases hl : (board.pile s).getLast? with
    | none => exact absurd hl hne
    | some tail => exact ⟨tail, rfl, Or.inr rfl⟩
  subst hv
  rw [hcm]
  simp

theorem moveCommand_same_pile_witness :
    moveCommand sampleBoard ["MOVE", "RED", "K", "TO", "2"] =
      some (ReturnValue.MOVED, sampleBoard) :=
  moveCommand_same_pile sampleBoard ["MOVE", "RED", "K", "TO", "2"] "2" 25 0 2
    (by decide) (by decide) (by decide) (by decide) (by decide) (by decide)
    ((checkOrderLoop_iff _ _).mp (by decide))

/-- C6 fails as stated: on the board dealt from `deck0` the Red Queen lies
face-up at the head of game stack 3 under a Black Jack and a Black 10, and
`MOVE RED Q TO 3` is rejected with `INVALID_MOVE_COMMAND`; on `sampleBoard` the
Black Ace lies face-up on deposit stack 5 and `MOVE BLACK A TO 5` is rejected. -/
theorem same_pile_command_rejected :
    (dealtBoard deck0).pile 3 = [⟨23, true⟩, ⟨20, true⟩, ⟨18, true⟩] ∧
      moveCommand (dealtBoard deck0) ["MOVE", "RED", "Q", "TO", "3"] =
        some (ReturnValue.INVALID_MOVE_COMMAND, dealtBoard deck0) ∧
      sampleBoard.pile 5 = [⟨0, true⟩] ∧
      moveCommand sampleBoard ["MOVE", "BLACK", "A", "TO", "5"] =
        some (ReturnValue.INVALID_MOVE_COMMAND, sampleBoard) := by
  decide

/-- C7: if `moveCommand` returns `INVALID_MOVE_COMMAND`, `INVALID_COMMAND` or
`INVALID_CARD`, the board afterwards is the board before: every pile has the
same nodes, in the same order, with the same face flags. -/
theorem moveCommand_rejection_keeps_board (board board1 : Board) (command : List String)
    (return_value : ReturnValue)
    (h : moveCommand board command = some (return_value, board1))
    (hrej : return_value = ReturnValue.INVALID_MOVE_COMMAND ∨
      return_value = ReturnValue.INVALID_COMMAND ∨ return_value = ReturnValue.INVALID_CARD) :
    board1 = board := by
  rcases moveCommand_result h with hm | hb
  · subst hm
    rcases hrej with hc | hc | hc <;> exact ReturnValue.noConfusion hc
  · exact hb

theorem moveCommand_rejection_keeps_board_witness :
    ∃ return_value board1,
      moveCommand sampleBoard ["MOVE", "RED", "3", "TO", "3"] = some (return_value, board1) ∧
        return_value = ReturnValue.INVALID_MOVE_COMMAND ∧ board1 = sampleBoard :=
  ⟨ReturnValue.INVALID_MOVE_COMMAND, sampleBoard, by decide, rfl,
    moveCommand_rejection_keeps_board sampleBoard sampleBoard ["MOVE", "RED", "3", "TO", "3"]
      ReturnValue.INVALID_MOVE_COMMAND (by decide) (Or.inl rfl)⟩

/-- C8: for source pile `s`, an offset `i` inside it and a different target pile,
`move` returns `MOVED`; afterwards the target pile is its old contents followed
by the entries of `s` from offset `i` on, unchanged; pile `s` has `i` entries,
its old first `i` entries with the last of them face-up; every other pile is
unchanged. -/
theorem move_relocates_run (board : Board) (target_stack i s : Nat)
    (hs : s < NUMBER_OF_STACKS) (hd : target_stack < NUMBER_OF_STACKS)
    (hi : i < (board.pile s).length) (hne : target_stack ≠ s) :
    ∃ board1, move board target_stack i s = some (ReturnValue.MOVED, board1) ∧
      board1.pile target_stack = board.pile target_stack ++ (board.pile s).drop i ∧
      (board1.pile s).length = i ∧
      (∀ j n, j < i → (board.pile s)[j]? = some n →
        (board1.pile s)[j]? =
          some (if j + 1 = i then { n with is_faced_up_ := true } else n)) ∧
      ∀ k, k ≠ s → k ≠ target_stack → board1.pile k = board.pile k := by
  refine ⟨_, move_eq hs hi hd, ?_, ?_, ?_, ?_⟩
  · rw [Board.pile_set_eq _ _ hd, Board.pile_set_ne _ _ (Ne.symm hne)]
  · rw [Board.pile_set_ne _ _ hne, Board.pile_set_eq _ _ hs, setTailFace_length,
      List.length_take, Nat.min_eq_left (Nat.le_of_lt hi)]
  · intro j n hj hn
    rw [Board.pile_set_ne _ _ hne, Board.pile_set_eq _ _ hs]
    exact reveal_take_getElem? _ i j n (Nat.le_of_lt hi) hj hn
  · intro k hks hkd
    rw [Board.pile_set_ne _ _ (Ne.symm hkd), Board.pile_set_ne _ _ (Ne.symm hks)]

theorem move_relocates_run_witness :
    ∃ board1, move sampleBoard 3 0 2 = some (ReturnValue.MOVED, board1) ∧
      board1.pile 3 = sampleBoard.pile 3 ++ (sampleBoard.pile 2).drop 0 ∧
      (board1.pile 2).length = 0 :=
  match move_relocates_run sampleBoard 3 0 2 (by decide) (by decide) (by decide) (by decide) with
  | ⟨board1, h1, h2, h3, _⟩ => ⟨board1, h1, h2, h3⟩

/-- C9, as the code has it: when `checkMove` has accepted a card for the pile
that holds it, `move` with that pile as source and target returns `MOVED`, every
other pile is unchanged and the pile keeps the same cards in the same order;
each entry keeps its face flag except the entry directly below the source
offset, which is face-up afterwards. -/
theorem move_same_pile (board : Board) (target_card : Int) (i s : Nat)
    (h : checkMove board target_card s = some (true, some (i, s))) :
    ∃ board1, move board s i s = some (ReturnValue.MOVED, board1) ∧
      (∀ k, k ≠ s → board1.pile k = board.pile k) ∧
      (board1.pile s).map Node.card_value_ = (board.pile s).map Node.card_value_ ∧
      ∀ j n, (board.pile s)[j]? = some n →
        (board1.pile s)[j]? =
          some (if j + 1 = i then { n with is_faced_up_ := true } else n) := by
  obtain ⟨hs, _, hi, _⟩ := searchCard_some (checkMove_loc h)
  refine ⟨_, move_eq hs hi hs, ?_, ?_, ?_⟩
  · intro k hk
    rw [Board.pile_set_ne _ _ (Ne.symm hk), Board.pile_set_ne _ _ (Ne.symm hk)]
  · rw [Board.pile_set_eq _ _ hs, Board.pile_set_eq _ _ hs, List.map_append,
      setTailFace_map_card, ← List.map_append, List.take_append_drop]
  · intro j n hn
    rw [Board.pile_set_eq _ _ hs, Board.pile_set_eq _ _ hs]
    exact reveal_take_append_drop_getElem? _ i j n (Nat.le_of_lt hi) hn

theorem move_same_pile_witness :
    ∃ board1, move sampleBoard 2 1 2 = some (ReturnValue.MOVED, board1) ∧
      (board1.pile 2).map Node.card_value_ = (sampleBoard.pile 2).map Node.card_value_ :=
  match move_same_pile sampleBoard 22 1 2 (by decide) with
  | ⟨board1, h1, _, h2, _⟩ => ⟨board1, h1, h2⟩

/-- C9 fails as stated: on the board dealt from `deck0`, `checkMove` accepts the
Black Ace (the face-up tail of the draw pile, offset 15) for the draw pile
itself, and `move` with that source and target turns the face-down Red Ace at
offset 14 face-up. -/
theorem same_pile_execution_flips_face :
    checkMove (dealtBoard deck0) 0 0 = some (true, some (15, 0)) ∧
      ((dealtBoard deck0).pile 0)[14]? = some ⟨1, false⟩ ∧
      (move (dealtBoard deck0) 0 15 0).map (fun r => (r.1, (r.2.pile 0)[14]?)) =
        some (ReturnValue.MOVED, some ⟨1, true⟩) := by
  decide

/-- C10 fails on the code: `deck0` holds the 26 card ids once each; after the
sixteen moves of `cmds0` the draw pile is empty, and `NEXT` then pushes the value
0 that `pop` returns for an empty list: the reachable board holds 27 nodes, two
of them with card id 0. -/
theorem next_on_empty_drawstack_adds_card :
    deck0.length = 26 ∧ deck0.Nodup ∧ (∀ c ∈ deck0, 0 ≤ c ∧ c ≤ 25) ∧
      cardCount (dealtBoard deck0) = 26 ∧
      ∃ board, runCommands (dealtBoard deck0) cmds0 = some board ∧
        Reachable deck0 board ∧ cardCount board = 27 ∧ holders board 0 = 2 := by
  refine ⟨by decide, by decide, by decide, by decide, ?_⟩
  have hrun : ∃ board, runCommands (dealtBoard deck0) cmds0 = some board ∧
      cardCount board = 27 ∧ holders board 0 = 2 := by
    cases h : runCommands (dealtBoard deck0) cmds0 with
    | none => exact absurd h (by decide)
    | some board =>
      have h2 : (runCommands (dealtBoard deck0) cmds0).map
          (fun b => (cardCount b, holders b 0)) = some (27, 2) := by decide
      rw [h] at h2
      have h3 := Option.some.inj h2
      exact ⟨board, rfl, congrArg Prod.fst h3, congrArg Prod.snd h3⟩
  obtain ⟨board, h1, h2, h3⟩ := hrun
  exact ⟨board, h1, reachable_runCommands Reachable.dealt h1, h2, h3⟩

/-- C11: on a board whose card ids lie in 0..25 the win test of the game loop
holds if and only if both deposit stacks are non-empty and one tail is the Black
King (24) and the other the Red King (25); a tail that is not a King (rank other
than 12) on either deposit stack makes the test false. -/
theorem winTest_iff_two_kings (board : Board)
    (hids : ∀ p ∈ board.piles, ∀ n ∈ p, 0 ≤ n.card_value_ ∧ n.card_value_ ≤ 25) :
    (winTest board = true ↔
      ∃ tail1 tail2, (board.pile 5).getLast? = some tail1 ∧
        (board.pile 6).getLast? = some tail2 ∧
        ((tail1.card_value_ = 24 ∧ tail2.card_value_ = 25) ∨
          (tail1.card_value_ = 25 ∧ tail2.card_value_ = 24))) ∧
    (∀ tail1, (board.pile 5).getLast? = some tail1 → tail1.card_value_ / 2 ≠ 12 →
      winTest board = false) ∧
    (∀ tail2, (board.pile 6).getLast? = some tail2 → tail2.card_value_ / 2 ≠ 12 →
      winTest board = false) := by
  have hr5 : ∀ t, (board.pile 5).getLast? = some t → 0 ≤ t.card_value_ ∧ t.card_value_ ≤ 25 :=
    fun t ht => hids _ (Board.pile_mem board (by decide)) t (List.mem_of_getLast?_eq_some ht)
  have hr6 : ∀ t, (board.pile 6).getLast? = some t → 0 ≤ t.card_value_ ∧ t.card_value_ ≤ 25 :=
    fun t ht => hids _ (Board.pile_mem board (by decide)) t (List.mem_of_getLast?_eq_some ht)
  unfold winTest
  show (_ ↔ _) ∧ (∀ tail1, (board.pile 5).getLast? = some tail1 → _) ∧
    (∀ tail2, (board.pile 6).getLast? = some tail2 → _)
  cases h5 : (board.pile 5).getLast? with
  | none => simp [DEPOSIT_STACK_1, h5]
  | some t1 =>
    cases h6 : (board.pile 6).getLast? with
    | none => simp [DEPOSIT_STACK_1, DEPOSIT_STACK_2, h5, h6]
    | some t2 =>
      obtain ⟨a0, a25⟩ := hr5 t1 h5
      obtain ⟨b0, b25⟩ := hr6 t2 h6
      simp only [DEPOSIT_STACK_1, DEPOSIT_STACK_2, h5, h6, decide_eq_true_eq,
        decide_eq_false_iff_not]
      refine ⟨?_, ?_, ?_⟩
      · constructor
        · intro h
          exact ⟨t1, t2, rfl, rfl, by omega⟩
        · rintro ⟨tail1, tail2, e1, e2, h⟩
          have e3 : t1 = tail1 := Option.some.inj e1
          have e4 : t2 = tail2 := Option.some.inj e2
          subst e3 e4
          omega
      · intro tail1 ht hk
        have e3 : t1 = tail1 := Option.some.inj ht
        subst e3
        omega
      · intro tail2 ht hk
        have e4 : t2 = tail2 := Option.some.inj ht
        subst e4
        omega

theorem winTest_iff_two_kings_witness :
    winTest kingsBoard = true ∧ winTest sampleBoard = false :=
  ⟨(winTest_iff_two_kings kingsBoard (by decide)).1.mpr
      ⟨⟨24, true⟩, ⟨25, true⟩, rfl, rfl, Or.inl ⟨rfl, rfl⟩⟩,
    (winTest_iff_two_kings sampleBoard (by decide)).2.1 ⟨0, true⟩ rfl (by decide)⟩

/-- C12: twenty-six cards appended in order to an empty draw pile with
`append(..., true)` and then dealt by `arrangeCards` give the draw pile
`c1..c16` with only its tail `c16` face-up, game stack 1 `= [c26]`, game stack 2
`= [c25, c22]`, game stack 3 `= [c24, c21, c19]`, game stack 4
`= [c23, c20, c18, c17]`, every dealt entry face-up, and two empty deposit
stacks. -/
theorem arrangeCards_deals_triangle
    (c1 c2 c3 c4 c5 c6 c7 c8 c9 c10 c11 c12 c13 c14 c15 c16 c17 c18 c19 c20 c21 c22 c23 c24
      c25 c26 : Int) :
    (arrangeCards
        ⟨[seedDrawstack [c1, c2, c3, c4, c5, c6, c7, c8, c9, c10, c11, c12, c13, c14, c15, c16,
            c17, c18, c19, c20, c21, c22, c23, c24, c25, c26], [], [], [], [], [], []],
          rfl⟩).piles =
      [[⟨c1, false⟩, ⟨c2, false⟩, ⟨c3, false⟩, ⟨c4, false⟩, ⟨c5, false⟩, ⟨c6, false⟩,
          ⟨c7, false⟩, ⟨c8, false⟩, ⟨c9, false⟩, ⟨c10, false⟩, ⟨c11, false⟩, ⟨c12, false⟩,
          ⟨c13, false⟩, ⟨c14, false⟩, ⟨c15, false⟩, ⟨c16, true⟩],
        [⟨c26, true⟩],
        [⟨c25, true⟩, ⟨c22, true⟩],
        [⟨c24, true⟩, ⟨c21, true⟩, ⟨c19, true⟩],
        [⟨c23, true⟩, ⟨c20, true⟩, ⟨c18, true⟩, ⟨c17, true⟩],
        [], []] := by
  simp [seedDrawstack, arrangeCards, arrangeStep, pop, append, Board.set, Board.pile, setTailFace,
    newNode, List.range', List.getLast?, List.dropLast]

/-- C13 fails on the code: `duplicateConfig` holds 26 valid cards with `BLACK A`
twice, and `readConfig` returns `EVERYTHING_OK` with both copies in the draw
stack, whatever the local `card` held at the start: `checkArray` is read but
never written. -/
theorem readConfig_accepts_duplicate (card : Int) :
    readConfig duplicateConfig card =
      some (ReturnValue.EVERYTHING_OK,
        seedDrawstack [0, 0, 1, 2, 3, 4, 5, 6, 7, 8, 9, 10, 11, 12, 13, 14, 15, 16, 17, 18, 19,
          20, 21, 22, 23, 24]) := by
  have hfirst : readCard duplicateConfig card = readCard duplicateConfig 0 := by
    show readCard ("BLACK" :: "A" :: duplicateConfig.drop 2) card =
      readCard ("BLACK" :: "A" :: duplicateConfig.drop 2) 0
    simp only [readCard, strToCard_valid "BLACK" "A" card 0 (Or.inl rfl) rfl,
      strToCard_valid "BLACK" "A" 0 0 (Or.inl rfl) rfl]
  have hloop : readConfigLoop 26 duplicateConfig card (List.replicate 26 0) [] =
      readConfigLoop 26 duplicateConfig 0 (List.replicate 26 0) [] := by
    show readConfigLoop (25 + 1) duplicateConfig card (List.replicate 26 0) [] =
      readConfigLoop (25 + 1) duplicateConfig 0 (List.replicate 26 0) []
    simp only [readConfigLoop, hfirst]
  have hzero : readConfig duplicateConfig 0 =
      some (ReturnValue.EVERYTHING_OK,
        seedDrawstack [0, 0, 1, 2, 3, 4, 5, 6, 7, 8, 9, 10, 11, 12, 13, 14, 15, 16, 17, 18, 19,
          20, 21, 22, 23, 24]) := by decide
  rw [← hzero]
  unfold readConfig
  rw [hloop]

/-- C14, as the code has it: for a `MOVE` command with a well-formed `TO`, color
and a pile number `n` in 1..6, `moveCommand` validates the card against internal
pile `n` and moves the run onto internal pile `n` (1..4 the game stacks, 5 and 6
the deposit stacks): `checkMove` for target `n` returns; when it is false the
command is rejected with the board unchanged; when it is true the command
returns `MOVED` and, unless the card already lies in pile `n`, pile `n` receives
the run from the located card to its pile's tail. -/
theorem moveCommand_target_is_pile_n (board : Board) (command : List String)
    (target_token : String) (target_card : Int) (n : Nat)
    (htoken : command[MOVE_TARGET_STACK]? = some target_token)
    (hto : command[MOVE_TO]? = some "TO")
    (hn : longToInt (strtol target_token) = (n : Int))
    (hrange : 1 ≤ n ∧ n ≤ 6)
    (hcard : strToCard (command.getD MOVE_CARD_COLOR "") (command.getD MOVE_CARD_RANK "") 0 =
      (ReturnValue.EVERYTHING_OK, target_card)) :
    ∃ move_valid loc, checkMove board target_card n = some (move_valid, loc) ∧
      (move_valid = false →
        moveCommand board command = some (ReturnValue.INVALID_MOVE_COMMAND, board)) ∧
      (move_valid = true →
        ∃ i s board1, loc = some (i, s) ∧
          moveCommand board command = some (ReturnValue.MOVED, board1) ∧
          (s = n → board1 = board) ∧
          (s ≠ n → board1.pile n = board.pile n ++ (board.pile s).drop i)) := by
  have hr : 1 ≤ longToInt (strtol target_token) ∧ longToInt (strtol target_token) ≤ 7 := by
    rw [hn]; omega
  have hnat : (longToInt (strtol target_token)).toNat = n := by
    rw [hn]; exact Int.toNat_ofNat n
  have hn7 : n < NUMBER_OF_STACKS := by
    show n < 7
    omega
  have hparsed := @moveCommand_parsed board command target_token target_card htoken hto hr hcard
  rw [hnat] at hparsed
  have hsome : ∃ move_valid loc, checkMove board target_card n = some (move_valid, loc) := by
    cases hsc : searchCard board target_card with
    | none => exact ⟨false, none, checkMove_not_found hsc⟩
    | some found =>
      obtain ⟨i, s⟩ := found
      by_cases hs : s ≤ NUMBER_OF_GAMESTACKS
      · obtain ⟨v, hv, _⟩ := checkMove_value hsc hs hn7
        exact ⟨v, _, hv⟩
      · exact ⟨false, _, checkMove_found_deposit hsc (Nat.lt_of_not_le hs)⟩
  obtain ⟨move_valid, loc, hcm⟩ := hsome
  refine ⟨move_valid, loc, hcm, ?_, ?_⟩
  · intro hv
    subst hv
    rw [hparsed, hcm]
  · intro hv
    subst hv
    obtain ⟨i, s, hl, hsc, _, _, _, _⟩ := checkMove_true hcm
    subst hl
    obtain ⟨hs7, _, hi, _⟩ := searchCard_some hsc
    rw [hparsed, hcm]
    by_cases hsn : s = n
    · refine ⟨i, s, board, rfl, ?_, fun _ => rfl, fun hc => absurd hsn hc⟩
      simp [hsn]
    · refine ⟨i, s,
        (board.set s (setTailFace true ((board.pile s).take i))).set n
          (((board.set s (setTailFace true ((board.pile s).take i))).pile n) ++
            (board.pile s).drop i),
        rfl, ?_, fun hc => absurd hc hsn, fun _ => ?_⟩
      · simp only [ne_eq, hsn, not_false_eq_true, if_true]
        exact move_eq hs7 hi hn7
      · rw [Board.pile_set_eq _ _ hn7, Board.pile_set_ne _ _ hsn]

theorem moveCommand_target_is_pile_n_witness :
    ∃ move_valid loc, checkMove sampleBoard 25 3 = some (move_valid, loc) ∧
      (move_valid = false →
        moveCommand sampleBoard ["MOVE", "RED", "K", "TO", "3"] =
          some (ReturnValue.INVALID_MOVE_COMMAND, sampleBoard)) :=
  match moveCommand_target_is_pile_n sampleBoard ["MOVE", "RED", "K", "TO", "3"] "3" 25 3
      (by decide) (by decide) (by decide) (by decide) (by decide) with
  | ⟨move_valid, loc, h1, h2, _⟩ => ⟨move_valid, loc, h1, h2⟩

/-- C14 fails as stated: on `sampleBoard`, `MOVE RED K TO 3` moves the Red
King and the Black Queen from internal pile 2 onto internal pile 3, not onto
internal pile 2 = 3 - 1; and `MOVE BLACK K TO 4` is validated against internal
pile 4 and rejected, although `checkMove` accepts the Black King for internal
pile 3 = 4 - 1. -/
theorem moveCommand_target_not_n_minus_one :
    (moveCommand sampleBoard ["MOVE", "RED", "K", "TO", "3"]).map
        (fun r => (r.1, r.2.pile 2, r.2.pile 3)) =
      some (ReturnValue.MOVED, [], [⟨25, true⟩, ⟨22, true⟩]) ∧
    moveCommand sampleBoard ["MOVE", "BLACK", "K", "TO", "4"] =
      some (ReturnValue.INVALID_MOVE_COMMAND, sampleBoard) ∧
    checkMove sampleBoard 24 3 = some (true, some (1, 0)) := by
  decide

/-- C15 fails on the code: for the rank token `ZZ`, `strToCard` returns
`EVERYTHING_OK` and leaves the card at the 0 that `moveCommand` initialised it
with; on the board dealt from `deck0` the command `MOVE RED ZZ TO 5` returns
`MOVED` and puts the Black Ace from the draw pile on deposit stack 5. -/
theorem moveCommand_moves_on_unknown_rank :
    strToCard "RED" "ZZ" 0 = (ReturnValue.EVERYTHING_OK, 0) ∧
    (dealtBoard deck0).pile 5 = [] ∧
    (moveCommand (dealtBoard deck0) ["MOVE", "RED", "ZZ", "TO", "5"]).map
        (fun r => (r.1, r.2.pile 5, (r.2.pile 0).length)) =
      some (ReturnValue.MOVED, [⟨0, true⟩], 15) := by
  decide

/-- C16: for a color token `BLACK` or `RED` and the rank token at position `k`
of the table `A, 2, ..., 10, J, Q, K`, `strToCard` succeeds with an id in 0..25
whose quotient by 2 is `k` and whose remainder is 0 for `BLACK` and 1 for `RED`;
two token pairs with the same id are equal, and every id in 0..25 is the id of a
token pair. -/
theorem strToCard_valid_tokens :
    (∀ (color rank : String) (card : Int) (k : Nat),
      (color = "BLACK" ∨ color = "RED") → ranks[k]? = some rank →
        ∃ id, strToCard color rank card = (ReturnValue.EVERYTHING_OK, id) ∧
          0 ≤ id ∧ id ≤ 25 ∧ id / 2 = (k : Int) ∧
          id % 2 = (if color = "BLACK" then 0 else 1)) ∧
    (∀ (color1 rank1 color2 rank2 : String) (card1 card2 : Int) (k1 k2 : Nat),
      (color1 = "BLACK" ∨ color1 = "RED") → ranks[k1]? = some rank1 →
      (color2 = "BLACK" ∨ color2 = "RED") → ranks[k2]? = some rank2 →
      (strToCard color1 rank1 card1).2 = (strToCard color2 rank2 card2).2 →
        color1 = color2 ∧ rank1 = rank2) ∧
    (∀ id : Int, 0 ≤ id → id ≤ 25 →
      ∃ (color rank : String) (k : Nat), (color = "BLACK" ∨ color = "RED") ∧
        ranks[k]? = some rank ∧
        ∀ card, strToCard color rank card = (ReturnValue.EVERYTHING_OK, id)) := by
  have hk13 : ∀ (k : Nat) (rank : String), ranks[k]? = some rank → k < 13 := by
    intro k rank hrank
    by_contra hc
    have hlen : ranks.length ≤ k := Nat.le_of_not_lt hc
    rw [List.getElem?_eq_none hlen] at hrank
    exact Option.noConfusion hrank
  refine ⟨?_, ?_, ?_⟩
  · intro color rank card k hcolor hrank
    have hk := hk13 k rank hrank
    refine ⟨_, strToCard_valid color rank card k hcolor hrank, ?_, ?_, ?_, ?_⟩ <;>
      rcases hcolor with hc | hc <;> subst hc <;> simp <;> omega
  · intro color1 rank1 color2 rank2 card1 card2 k1 k2 hc1 hr1 hc2 hr2 heq
    rw [strToCard_valid color1 rank1 card1 k1 hc1 hr1,
      strToCard_valid color2 rank2 card2 k2 hc2 hr2] at heq
    simp only at heq
    have hkk : k1 = k2 ∧ color1 = color2 := by
      rcases hc1 with h1 | h1 <;> rcases hc2 with h2 | h2 <;> subst h1 <;> subst h2 <;>
        simp at heq ⊢ <;> omega
    obtain ⟨hk, hcol⟩ := hkk
    subst hk
    rw [hr1] at hr2
    exact ⟨hcol, Option.some.inj hr2⟩
  · intro id h0 h25
    have hk : (id / 2).toNat < 13 := by omega
    have hget : ranks[(id / 2).toNat]? = some (ranks.getD (id / 2).toNat "") := by
      rw [List.getD_eq_getElem?_getD, List.getElem?_eq_getElem (show (id / 2).toNat < ranks.length from hk)]
      rfl
    by_cases hpar : id % 2 = 0
    · refine ⟨"BLACK", _, (id / 2).toNat, Or.inl rfl, hget, fun card => ?_⟩
      rw [strToCard_valid "BLACK" _ card _ (Or.inl rfl) hget]
      simp
      omega
    · refine ⟨"RED", _, (id / 2).toNat, Or.inr rfl, hget, fun card => ?_⟩
      rw [strToCard_valid "RED" _ card _ (Or.inr rfl) hget]
      simp
      omega

theorem strToCard_valid_tokens_witness :
    ∃ id, strToCard "RED" "K" 7 = (ReturnValue.EVERYTHING_OK, id) ∧ 0 ≤ id ∧ id ≤ 25 ∧
      id / 2 = ((12 : Nat) : Int) ∧ id % 2 = (if "RED" = "BLACK" then 0 else 1) :=
  strToCard_valid_tokens.1 "RED" "K" 7 12 (Or.inr rfl) rfl

/-- C17: for a draw pile with at least two entries, ending in `under` and then
`top`, `rotateDrawstack` puts a face-down entry with the card of `top` at the
head, keeps the entries below `under` as they were and in their order, and
leaves `under` as the new tail, face-up; the cards of the pile are the same
cards. -/
theorem rotateDrawstack_two_or_more (l : Doubly_Linked_List) (h : 2 ≤ l.length) :
    ∃ front under top, l = front ++ [under, top] ∧
      rotateDrawstack l =
        ⟨top.card_value_, false⟩ :: (front ++ [{ under with is_faced_up_ := true }]) ∧
      ((rotateDrawstack l).map Node.card_value_).Perm (l.map Node.card_value_) := by
  obtain ⟨front, under, top, hl⟩ := two_or_more_split l h
  have hrot : rotateDrawstack l =
      ⟨top.card_value_, false⟩ :: (front ++ [{ under with is_faced_up_ := true }]) := by
    rw [hl, show front ++ [under, top] = (front ++ [under]) ++ [top] by simp,
      rotateDrawstack_concat, setTailFace_concat]
  refine ⟨front, under, top, hl, hrot, ?_⟩
  rw [hrot, hl]
  simp only [List.map_cons, List.map_append, List.map_nil]
  have hperm : (List.map Node.card_value_ front ++ [under.card_value_, top.card_value_]).Perm
      (top.card_value_ :: (List.map Node.card_value_ front ++ [under.card_value_])) := by
    rw [show List.map Node.card_value_ front ++ [under.card_value_, top.card_value_] =
      (List.map Node.card_value_ front ++ [under.card_value_]) ++ [top.card_value_] by simp]
    exact List.perm_append_singleton _ _
  exact hperm.symm

theorem rotateDrawstack_two_or_more_witness :
    ∃ front under top, sampleBoard.pile 0 = front ++ [under, top] ∧
      rotateDrawstack (sampleBoard.pile 0) =
        ⟨top.card_value_, false⟩ :: (front ++ [{ under with is_faced_up_ := true }]) :=
  match rotateDrawstack_two_or_more (sampleBoard.pile 0) (by decide) with
  | ⟨front, under, top, h1, h2, _⟩ => ⟨front, under, top, h1, h2⟩

/-- C18 fails on the code: `rotateDrawstack` on a pile of one face-up entry
leaves that entry face-down, because `push` onto the list that `pop` emptied
does not set the face flag as `append` does.  After the first fifteen moves of
`cmds0` on the board dealt from `deck0` the draw pile is the face-up Red 8
alone, and `NEXT` leaves a non-empty draw pile whose tail is face-down. -/
theorem rotateDrawstack_single_entry_hidden :
    rotateDrawstack [⟨15, true⟩] = [⟨15, false⟩] ∧
    (runCommands (dealtBoard deck0) (cmds0.take 15)).map (fun b => b.pile 0) =
      some [⟨15, true⟩] ∧
    ∃ board, runCommands (dealtBoard deck0) (cmds0.take 15 ++ ["NEXT"]) = some board ∧
      Reachable deck0 board ∧ board.pile 0 = [⟨15, false⟩] := by
  refine ⟨by decide, by decide, ?_⟩
  cases h : runCommands (dealtBoard deck0) (cmds0.take 15 ++ ["NEXT"]) with
  | none => exact absurd h (by decide)
  | some board =>
    have h2 : (runCommands (dealtBoard deck0) (cmds0.take 15 ++ ["NEXT"])).map
        (fun b => b.pile 0) = some [⟨15, false⟩] := by decide
    rw [h] at h2
    exact ⟨board, rfl, reachable_runCommands Reachable.dealt h, Option.some.inj h2⟩

/-- C19: on every board reachable from a dealt board by commands that
`handleCommand` handles, every entry of the game stacks 1..4 and of the deposit
stacks 5 and 6 is face-up. -/
theorem reachable_stacks_face_up (cards : List Int) (board : Board)
    (h : Reachable cards board) (k : Nat) (hk : 1 ≤ k ∧ k ≤ 6) :
    ∀ n ∈ board.pile k, n.is_faced_up_ = true :=
  (reachable_faceInvariant h).2 k hk.1 (Nat.lt_succ_of_le hk.2)

theorem reachable_stacks_face_up_witness :
    Reachable deck0 (dealtBoard deck0) ∧ (⟨23, true⟩ : Node) ∈ (dealtBoard deck0).pile 3 ∧
      (⟨23, true⟩ : Node).is_faced_up_ = true :=
  ⟨Reachable.dealt, by decide,
    reachable_stacks_face_up deck0 (dealtBoard deck0) Reachable.dealt 3 (by decide)
      ⟨23, true⟩ (by decide)⟩

/-- C20: on every board reachable from a dealt board by commands that
`handleCommand` handles, every entry of the draw pile below its tail is
face-down; and whenever `checkMove` reports a card located in the draw pile, the
card is the draw pile's tail and the run from it is that single entry. -/
theorem reachable_drawstack_only_tail_face_up (cards : List Int) (board : Board)
    (h : Reachable cards board) :
    (∀ j n, (board.pile 0)[j]? = some n → j + 1 < (board.pile 0).length →
      n.is_faced_up_ = false) ∧
    (∀ (target_card : Int) (target_stack i : Nat) (move_valid : Bool),
      checkMove board target_card target_stack = some (move_valid, some (i, 0)) →
        i + 1 = (board.pile 0).length ∧
          ∃ n, (board.pile 0).drop i = [n] ∧ n.card_value_ = target_card) := by
  have hdraw := (reachable_faceInvariant h).1
  constructor
  · intro j n hn hj
    exact hdraw n (mem_dropLast_of_getElem? hn hj)
  · intro target_card target_stack i move_valid hcm
    obtain ⟨_, _, _, ⟨n, hn, hnm⟩, _⟩ := searchCard_some (checkMove_loc hcm)
    obtain ⟨hlast, hrun⟩ := hiddenBelowTail_face_up_is_tail hdraw hn hnm.2
    exact ⟨hlast, n, hrun, hnm.1⟩

theorem reachable_drawstack_only_tail_face_up_witness :
    Reachable deck0 (dealtBoard deck0) ∧
      checkMove (dealtBoard deck0) 0 5 = some (true, some (15, 0)) ∧
      15 + 1 = ((dealtBoard deck0).pile 0).length :=
  ⟨Reachable.dealt, by decide,
    ((reachable_drawstack_only_tail_face_up deck0 (dealtBoard deck0) Reachable.dealt).2
      0 5 15 true (by decide)).1⟩

/-- C21: on every board reachable from a dealt board by commands that
`handleCommand` handles, each deposit stack (index 5 and 6), read head to tail,
holds the ids `c, c + 2, c + 4, ...` for a `c` that is 0 or 1: entry `j` has rank
`j` (the head is an Ace) and every entry has color `c`. -/
theorem reachable_deposit_stacks_ascend (cards : List Int) (board : Board)
    (h : Reachable cards board) (k : Nat) (hk : k = 5 ∨ k = 6) :
    ∃ c : Int, (c = 0 ∨ c = 1) ∧ ∀ (j : Nat) (n : Node), (board.pile k)[j]? = some n →
      n.card_value_ = c + 2 * (j : Int) ∧ n.card_value_ / 2 = (j : Int) ∧
        n.card_value_ % 2 = c := by
  have hk4 : NUMBER_OF_GAMESTACKS < k := by
    show 4 < k
    omega
  have hk7 : k < NUMBER_OF_STACKS := by
    show k < 7
    omega
  obtain ⟨c, hc, hval⟩ := reachable_depositInvariant h k hk4 hk7
  refine ⟨c, hc, ?_⟩
  intro j n hn
  have hv := hval j n hn
  refine ⟨hv, ?_, ?_⟩ <;> omega

theorem reachable_deposit_stacks_ascend_witness :
    Reachable deck0 fourMovesBoard ∧
      ∃ c : Int, (c = 0 ∨ c = 1) ∧ ∀ (j : Nat) (n : Node),
        (fourMovesBoard.pile 6)[j]? = some n →
          n.card_value_ = c + 2 * (j : Int) ∧ n.card_value_ / 2 = (j : Int) ∧
            n.card_value_ % 2 = c :=
  have hr : Reachable deck0 fourMovesBoard :=
    reachable_runCommands Reachable.dealt
      (show runCommands (dealtBoard deck0) (cmds0.take 4) = some fourMovesBoard by decide)
  ⟨hr, reachable_deposit_stacks_ascend deck0 fourMovesBoard hr 6 (Or.inr rfl)⟩

/-- C22: on every board reachable, by commands that `handleCommand` handles, from
the board dealt from 26 ids in 0..25, every pile holds at most `BOARD_SIZE`
entries; so `searchCard` finds a card whenever a face-up entry of the board holds
it, what it finds is the first such entry, and `printGame` prints every entry of
the board in its row and column. -/
theorem reachable_piles_within_board_size (cards : List Int) (board : Board)
    (hlen : cards.length = 26) (hids : ∀ c ∈ cards, 0 ≤ c ∧ c ≤ 25)
    (h : Reachable cards board) :
    (∀ k, (board.pile k).length ≤ BOARD_SIZE) ∧
    (∀ (target_card : Int) (k : Nat) (n : Node), n ∈ board.pile k →
      IsFaceUpCard target_card n → ∃ i s, searchCard board target_card = some (i, s)) ∧
    (∀ (target_card : Int) (i s : Nat),
      searchCard board target_card = some (i, s) ↔ FirstFaceUp board target_card s i) ∧
    (∀ (k j : Nat) (n : Node), (board.pile k)[j]? = some n →
      ∃ row, (printGame board)[j]? = some row ∧ row[k]? = some (some n)) := by
  have hsize : ∀ k, (board.pile k).length ≤ BOARD_SIZE :=
    pile_length_le_board_size (reachable_sizeInvariant hlen hids h)
      (reachable_depositInvariant h)
  have hrow : ∀ (k j : Nat) (n : Node), (board.pile k)[j]? = some n → j < BOARD_SIZE :=
    fun k j n hn => Nat.lt_of_lt_of_le (getElem?_lt_length hn) (hsize k)
  refine ⟨hsize, ?_, ?_, ?_⟩
  · intro target_card k n hmem hup
    obtain ⟨j, hj⟩ := List.getElem?_of_mem hmem
    have hk : k < NUMBER_OF_STACKS := by
      by_contra hc
      rw [Board.pile_eq_nil board (Nat.le_of_not_lt hc)] at hj
      simp at hj
    cases hsc : searchCard board target_card with
    | none => exact absurd hup (searchCard_none hsc k hk j n (hrow k j n hj) hj)
    | some loc => exact ⟨loc.1, loc.2, rfl⟩
  · intro target_card i s
    apply searchCard_iff
    intro p hp
    obtain ⟨t, ht⟩ := List.getElem?_of_mem hp
    rw [← (Board.pile_of_getElem? ht).2]
    exact hsize t
  · intro k j n hn
    exact printGame_cell (hrow k j n hn) hn

theorem reachable_piles_within_board_size_witness :
    Reachable deck0 (dealtBoard deck0) ∧
      ((dealtBoard deck0).pile 0).length ≤ BOARD_SIZE ∧
      ∃ i s, searchCard (dealtBoard deck0) 16 = some (i, s) :=
  have hall := reachable_piles_within_board_size deck0 (dealtBoard deck0) (by decide)
    (by decide) Reachable.dealt
  ⟨Reachable.dealt, hall.1 0, hall.2.1 16 4 ⟨16, true⟩ (by decide) ⟨rfl, rfl⟩⟩

/-- C23 fails on the code: the pile number 7 passes the range check of
`moveCommand` and is used as the pile index itself, and no board has a pile 7.
On the board dealt from `deck0` the command `MOVE BLACK A TO 7` locates the
Black Ace on the draw pile, finds its run in order and then reads
`stacks[7].tail_`, outside the array. -/
theorem moveCommand_pile_seven_outside_board :
    (1 ≤ longToInt (strtol "7") ∧ longToInt (strtol "7") ≤ ((NUMBER_OF_STACKS : Nat) : Int)) ∧
    (longToInt (strtol "7")).toNat = 7 ∧
    (∀ board : Board, board.get? 7 = none) ∧
    searchCard (dealtBoard deck0) 0 = some (15, 0) ∧
    checkMove (dealtBoard deck0) 0 7 = none ∧
    moveCommand (dealtBoard deck0) ["MOVE", "BLACK", "A", "TO", "7"] = none ∧
    handleCommand (dealtBoard deck0) "MOVE BLACK A TO 7" = none := by
  refine ⟨by decide, by decide, ?_, by decide, by decide, by decide, by decide⟩
  intro board
  unfold Board.get?
  exact List.getElem?_eq_none (by rw [board.size_eq])

end Solitaire
